import Mathlib

/-!
Verification of the argparse command-line parsing library (single C++ header
`include/argparse/argument_parser.h`).  The development shallowly embeds:

* the `ArgValue` lazy conversion layer (`safeStrTo` over the C library
  functions `strtoull`, `strtoll`/`strtol`, `strtof`, `strtod`, modelled from
  the C standard's description of those functions on an LP64 platform);
* the `ArgumentParser` registry: `Argument` records, the positional list, the
  option map and the alias map, declaration (`argumentNew`), `reset`,
  the command-line scan (`cmdlineIs`) and the post-scan check
  (`checkArgument`), and the read accessors (`argValue`).

C++ strings are modelled as `List Char`; `shared_ptr<Argument>` sharing is
modelled with an arena: the parser owns a heap `args : Nat → Argument`
together with the count of allocated cells, and the maps store indices, so
several keys may refer to the same mutable record.
-/

set_option maxRecDepth 10000

namespace Argparse

/-- Strings of the C++ program, as lists of characters. -/
abbrev Str := List Char

/-- Literal helper: the character list of a Lean string literal. -/
def str (s : String) : Str := s.data

/-- The NUL character, returned by `std::string::operator[]` at the index
equal to the size, and terminating every `c_str()` buffer. -/
def nul : Char := Char.ofNat 0

/-- Character of `s` at index `i`, NUL when `i` is at or past the end
(mirrors reading `c_str()` / `operator[]` at the size index). -/
def charAtNul (s : Str) (i : Nat) : Char := s.getD i nul

/-- C `isalpha` in the default locale: ASCII letters only. -/
def isAlphaAscii (c : Char) : Bool :=
  (65 ≤ c.toNat && c.toNat ≤ 90) || (97 ≤ c.toNat && c.toNat ≤ 122)

/-- C `isspace` in the default locale: space and the five control blanks. -/
def isSpaceC (c : Char) : Bool :=
  c.toNat == 32 || (9 ≤ c.toNat && c.toNat ≤ 13)

/-- C `isdigit`: the ten decimal digits. -/
def isDigitC (c : Char) : Bool := 48 ≤ c.toNat && c.toNat ≤ 57

/-- Numeric value of a decimal digit character. -/
def digVal (c : Char) : Nat := c.toNat - 48

/-- Value of a decimal digit string, most significant digit first. -/
def digitsVal (ds : Str) : Nat := ds.foldl (fun a c => 10 * a + digVal c) 0

/-- Error taxonomy of the library: `ArgKeyException`, `ArgValueException`
and `ArgPropertyException`, each with the context strings they carry. -/
inductive ArgErr where
  | key (k : Str) (reason : Str)
  | value (v : Str) (reason : Str)
  | property (k : Str) (prop : Str) (reason : Str)
deriving DecidableEq

instance {ε α : Type} [DecidableEq ε] [DecidableEq α] : DecidableEq (Except ε α) := by
  intro x y
  cases x <;> cases y
  case ok.ok a b =>
    exact if h : a = b then .isTrue (by rw [h]) else .isFalse (by simp [h])
  case error.error a b =>
    exact if h : a = b then .isTrue (by rw [h]) else .isFalse (by simp [h])
  case ok.error a b => exact .isFalse (by simp)
  case error.ok a b => exact .isFalse (by simp)

/-! ### The `strto*` integer model

`strtoull`/`strtoll` (base 10) skip leading white space, accept one optional
sign and then a longest run of decimal digits.  If the digit run is empty no
conversion is performed and the end pointer is the start of the string;
otherwise the end pointer is just past the digits.  Out-of-range magnitudes
report `ERANGE`.  `safeStrTo` then fails iff the string is empty, the
character at the end pointer is not NUL, or `ERANGE` was reported. -/

/-- Result of the subject-sequence recognition of `strtoull`/`strtoll`:
the sign, the digit magnitude (unbounded), the end-pointer offset, and
whether a conversion was performed. -/
structure IntParse where
  neg : Bool
  mag : Nat
  endPos : Nat
  conv : Bool
deriving DecidableEq

/-- Subject-sequence recognition shared by the base-10 integer conversions. -/
def intParse (s : Str) : IntParse :=
  let w := (s.takeWhile isSpaceC).length
  let r0 := s.drop w
  let sl := if r0.head? = some '-' ∨ r0.head? = some '+' then 1 else 0
  let ds := (r0.drop sl).takeWhile isDigitC
  if ds = [] then ⟨false, 0, 0, false⟩
  else ⟨r0.head? = some '-', digitsVal ds, w + sl + ds.length, true⟩

/-- The shared failure condition of `ArgValue::safeStrTo`: empty string,
unconsumed characters at the end pointer, or a range error. -/
def safeStrToFails (s : Str) (endPos : Nat) (rangeErr : Prop) [Decidable rangeErr] : Prop :=
  s = [] ∨ charAtNul s endPos ≠ nul ∨ rangeErr

instance (s : Str) (endPos : Nat) (rangeErr : Prop) [Decidable rangeErr] :
    Decidable (safeStrToFails s endPos rangeErr) := by
  unfold safeStrToFails; infer_instance

/-- `ArgValue::value<uint64_t>`: `strtoull` base 10 through `safeStrTo`.
A minus sign negates the converted value modulo `2^64` (C standard). -/
def toUint64 (s : Str) : Except ArgErr Nat :=
  let p := intParse s
  if safeStrToFails s p.endPos (2 ^ 64 - 1 < p.mag) then
    .error (.value s (str "convert to uint64"))
  else
    .ok (if p.neg then (2 ^ 64 - p.mag) % 2 ^ 64 else p.mag)

/-- Signed value denoted by a recognised subject sequence. -/
def i64OfParse (p : IntParse) : Int :=
  if p.neg then -(p.mag : Int) else (p.mag : Int)

/-- `ArgValue::value<int64_t>`: `strtoll` base 10 through `safeStrTo`. -/
def toInt64 (s : Str) : Except ArgErr Int :=
  let p := intParse s
  if safeStrToFails s p.endPos
      (i64OfParse p < -(2 ^ 63) ∨ 2 ^ 63 - 1 < i64OfParse p) then
    .error (.value s (str "convert to int64"))
  else
    .ok (i64OfParse p)

/-- The 64-bit mask `~((1uLL << 32) - 1)` used by `value<uint32_t>`. -/
def maskU32 : Nat := 2 ^ 64 - 2 ^ 32

/-- The 64-bit mask `~((1uLL << 31) - 1)` used by `value<int32_t>`. -/
def maskI32 : Nat := 2 ^ 64 - 2 ^ 31

/-- `ArgValue::value<uint32_t>`: parse as `uint64_t`, then fail when the
high 32 bits are set. -/
def toUint32 (s : Str) : Except ArgErr Nat :=
  let p := intParse s
  if safeStrToFails s p.endPos (2 ^ 64 - 1 < p.mag) then
    .error (.value s (str "convert to uint32"))
  else
    let v := if p.neg then (2 ^ 64 - p.mag) % 2 ^ 64 else p.mag
    if v &&& maskU32 ≠ 0 then .error (.value s (str "convert to uint32_t"))
    else .ok v

/-- Two's-complement 64-bit image of a signed value, as a natural number. -/
def bits64 (v : Int) : Nat := (v % 2 ^ 64).toNat

/-- Truncation of a signed value to 32 bits (the `static_cast<int32_t>`
at the end of `value<int32_t>`, two's-complement wrap-around). -/
def wrap32 (v : Int) : Int := (v + 2 ^ 31) % 2 ^ 32 - 2 ^ 31

/-- `ArgValue::value<int32_t>`: `strtol` (64-bit `long` on LP64) through
`safeStrTo`, then the sign-extension mask test
`(v & mask) && ((~v) & mask)` where `~v` is the 64-bit complement. -/
def toInt32 (s : Str) : Except ArgErr Int :=
  let p := intParse s
  if safeStrToFails s p.endPos
      (i64OfParse p < -(2 ^ 63) ∨ 2 ^ 63 - 1 < i64OfParse p) then
    .error (.value s (str "convert to int32"))
  else if bits64 (i64OfParse p) &&& maskI32 ≠ 0
      ∧ bits64 (-(i64OfParse p) - 1) &&& maskI32 ≠ 0 then
    .error (.value s (str "convert to int32"))
  else
    .ok (wrap32 (i64OfParse p))

/-! ### The `strtof`/`strtod` model

The subject sequence of `strtod` (C17 7.22.1.3): optional white space, an
optional sign, then either a decimal mantissa with optional `e`-exponent, a
hexadecimal mantissa introduced by `0x` with optional `p`-exponent, or the
case-insensitive words `inf`/`infinity`/`nan` (the latter with an optional
parenthesised n-char-sequence).  We record the end-pointer offset and, for
finite numerals, the exact value of the subject in the form
`± mant * base ^ exp` (`none` stands for an infinity, a NaN, or the value 0
of an empty subject); the IEEE-754 rounding of that value is not modelled,
no claim depends on it.  Range failure (`ERANGE`) is modelled as the
overflow mandated by the standard, `2^1024 ≤ |value|` for `double` and
`2^128 ≤ |value|` for `float` up to the rounding boundary; the
implementation-defined `ERANGE` on underflow is not modelled and no claim
depends on it. -/

/-- ASCII lower-casing of a letter. -/
def toLowerC (c : Char) : Char :=
  if 65 ≤ c.toNat ∧ c.toNat ≤ 90 then Char.ofNat (c.toNat + 32) else c

/-- Case-insensitive literal match at the front of `s`. -/
def matchesCI (s : Str) (lit : Str) : Bool :=
  (s.take lit.length).map toLowerC == lit

/-- C `isxdigit`. -/
def isHexDigit (c : Char) : Bool :=
  isDigitC c || (97 ≤ (toLowerC c).toNat && (toLowerC c).toNat ≤ 102)

/-- Numeric value of a hexadecimal digit character. -/
def hexVal (c : Char) : Nat :=
  if isDigitC c then digVal c else (toLowerC c).toNat - 87

/-- Value of a hexadecimal digit string, most significant digit first. -/
def hexDigitsVal (ds : Str) : Nat := ds.foldl (fun a c => 16 * a + hexVal c) 0

/-- Characters of a NaN n-char-sequence: digits, letters and underscore. -/
def nanBodyChar (c : Char) : Bool := isDigitC c || isAlphaAscii c || c == '_'

/-- Exact value of a finite `strtod` subject: `± mant * base ^ exp`. -/
structure FloatVal where
  neg : Bool
  mant : Nat
  base : Nat
  exp : Int
deriving DecidableEq

/-- Result of the `strtod` subject recognition: end-pointer offset and the
exact value of a finite subject. -/
structure FloatParse where
  endPos : Nat
  val : Option FloatVal
deriving DecidableEq

/-- Exponent part recognition (`e`/`E` or `p`/`P`, an optional sign, and a
nonempty digit run, consumed only when the digit run is nonempty): returns
the consumed length and the signed exponent value. -/
def expParse (s : Str) (marks : List Char) : Nat × Int :=
  match s with
  | [] => (0, 0)
  | m :: r =>
    if marks.contains (toLowerC m) then
      let esl := if r.head? = some '-' ∨ r.head? = some '+' then 1 else 0
      let eneg := r.head? = some '-'
      let ed := (r.drop esl).takeWhile isDigitC
      if ed = [] then (0, 0)
      else (1 + esl + ed.length, if eneg then -(digitsVal ed : Int) else (digitsVal ed : Int))
    else (0, 0)

/-- Mantissa recognition over a digit class: the digit run, whether a
decimal point follows it, and the digit run after the point. -/
def mantParse (s : Str) (dig : Char → Bool) : Str × Bool × Str :=
  let d1 := s.takeWhile dig
  let ra := s.drop d1.length
  if ra.head? = some '.' then (d1, true, (ra.drop 1).takeWhile dig)
  else (d1, false, [])

/-- Subject-sequence recognition of `strtod`/`strtof`. -/
def strtodParse (s : Str) : FloatParse :=
  let w := (s.takeWhile isSpaceC).length
  let r0 := s.drop w
  let sl := if r0.head? = some '-' ∨ r0.head? = some '+' then 1 else 0
  let neg := r0.head? = some '-'
  let r1 := r0.drop sl
  let base := w + sl
  if matchesCI r1 (str "infinity") then ⟨base + 8, none⟩
  else if matchesCI r1 (str "inf") then ⟨base + 3, none⟩
  else if matchesCI r1 (str "nan") then
    let r2 := r1.drop 3
    if r2.head? = some '(' then
      let body := (r2.drop 1).takeWhile nanBodyChar
      if ((r2.drop 1).drop body.length).head? = some ')' then
        ⟨base + 3 + 1 + body.length + 1, none⟩
      else ⟨base + 3, none⟩
    else ⟨base + 3, none⟩
  else if matchesCI r1 (str "0x") then
    let rh := r1.drop 2
    let m := mantParse rh isHexDigit
    if m.1 = [] ∧ m.2.2 = [] then ⟨base + 1, some ⟨neg, 0, 10, 0⟩⟩
    else
      let mantLen := m.1.length + (if m.2.1 then 1 + m.2.2.length else 0)
      let e := expParse (rh.drop mantLen) ['p']
      ⟨base + 2 + mantLen + e.1,
       some ⟨neg, hexDigitsVal (m.1 ++ m.2.2), 2, e.2 - 4 * m.2.2.length⟩⟩
  else
    let m := mantParse r1 isDigitC
    if m.1 = [] ∧ m.2.2 = [] then ⟨0, none⟩
    else
      let mantLen := m.1.length + (if m.2.1 then 1 + m.2.2.length else 0)
      let e := expParse (r1.drop mantLen) ['e']
      ⟨base + mantLen + e.1,
       some ⟨neg, digitsVal (m.1 ++ m.2.2), 10, e.2 - m.2.2.length⟩⟩

/-- Overflow of a recognised subject beyond the finite range bound `lim`:
`lim ≤ mant * base ^ exp`, stated over naturals. -/
def floatOverflow (f : FloatParse) (lim : Nat) : Prop :=
  match f.val with
  | some v =>
      if 0 ≤ v.exp then lim ≤ v.mant * v.base ^ v.exp.toNat
      else lim * v.base ^ (-v.exp).toNat ≤ v.mant
  | none => False

instance (f : FloatParse) (lim : Nat) : Decidable (floatOverflow f lim) := by
  unfold floatOverflow; cases f.val <;> simp only [] <;> infer_instance

/-- `ArgValue::value<float>`: `strtof` through `safeStrTo`. -/
def toFloatV (s : Str) : Except ArgErr (Option FloatVal) :=
  let f := strtodParse s
  if safeStrToFails s f.endPos (floatOverflow f (2 ^ 128)) then
    .error (.value s (str "convert to float"))
  else .ok f.val

/-- `ArgValue::value<double>`: `strtod` through `safeStrTo`. -/
def toDoubleV (s : Str) : Except ArgErr (Option FloatVal) :=
  let f := strtodParse s
  if safeStrToFails s f.endPos (floatOverflow f (2 ^ 1024)) then
    .error (.value s (str "convert to double"))
  else .ok f.val

/-! ### The argument registry

`ArgumentParser` owns positional arguments and options.  Sharing of one
`Argument` under several option keys (`shared_ptr` in the source) is
modelled with an arena: `args` is the heap, `argsLen` the number of
allocated records, and the positional list and option map store indices. -/

/-- `ArgumentParser::Argument`: declaration-time properties plus the
mutable parse state (`given_` and `argValueList_`).  Argument values are
the raw stored strings (`ArgValue` wraps a string). -/
structure Argument where
  name : Str
  help : Str
  expectCount : Nat
  required : Bool
  defaultValue : Str
  choices : List Str
  given : Bool
  argValueList : List Str
deriving DecidableEq

/-- Default (unallocated) arena cell. -/
def defaultArg : Argument := ⟨[], [], 0, false, [], [], false, []⟩

instance : Inhabited Argument := ⟨defaultArg⟩

/-- The `-1uL` sentinel of `expectCount` on an LP64 platform. -/
def UNLIM : Nat := 2 ^ 64 - 1

/-- `ArgumentParser::isFlag`: starts with `-` or `--` followed by an
alphabetic character (`operator[]` at the size index reads NUL). -/
def isFlag (s : Str) : Bool :=
  (s.take 1 = ['-'] && isAlphaAscii (charAtNul s 1))
    || (s.take 2 = ['-', '-'] && isAlphaAscii (charAtNul s 2))

/-- `Argument::isChoice`: empty choice set accepts everything. -/
def isChoiceL (choices : List Str) (v : Str) : Prop :=
  choices = [] ∨ v ∈ choices

instance (choices : List Str) (v : Str) : Decidable (isChoiceL choices v) := by
  unfold isChoiceL; infer_instance

/-- Association-list lookup, modelling `unordered_map::find`. -/
def lookupA {α : Type} : List (Str × α) → Str → Option α
  | [], _ => none
  | (k, v) :: t, key => if key = k then some v else lookupA t key

/-- Association-list update, modelling `unordered_map::operator[] =`. -/
def updateA {α : Type} : List (Str × α) → Str → α → List (Str × α)
  | [], key, v => [(key, v)]
  | (k, w) :: t, key, v =>
      if k = key then (k, v) :: t else (k, w) :: updateA t key v

/-- `ArgumentParser`: description, argument arena, positional index list,
option map and alias map. -/
structure ArgumentParser where
  description : Str
  argsLen : Nat
  args : Nat → Argument
  positionalArgList : List Nat
  optionMap : List (Str × Nat)
  aliasMap : List (Str × Str)

/-- A freshly constructed parser. -/
def emptyParser (d : Str) : ArgumentParser :=
  ⟨d, 0, fun _ => defaultArg, [], [], []⟩

/-- Heap read. -/
def getArg (p : ArgumentParser) (i : Nat) : Argument := p.args i

/-- Heap write (mutation of the shared record behind index `i`). -/
def setArg (p : ArgumentParser) (i : Nat) (a : Argument) : ArgumentParser :=
  { p with args := fun j => if j = i then a else p.args j }

/-- `Argument::argValueDelAll`. -/
def clearArg (a : Argument) : Argument := { a with given := false, argValueList := [] }

/-- `Argument::argValueNew`. -/
def pushValue (a : Argument) (v : Str) : Argument :=
  { a with argValueList := a.argValueList ++ [v] }

/-- `Argument::givenIs(true)`. -/
def markGiven (a : Argument) : Argument := { a with given := true }

/-- Alias loop at the end of `ArgumentParser::argumentNew`: the canonical
name is already inserted; each alias is checked to be a flag (raising the
property error `alias` otherwise, with all earlier insertions kept) and
then inserted into the option map and the alias map. -/
def processAliases : ArgumentParser → Str → Nat → List Str → ArgumentParser × Option ArgErr
  | q, _, _, [] => (q, none)
  | q, name, i, al :: rest =>
    if isFlag al = false then
      (q, some (.property name (str "alias") (str "alias for flag must also be a flag")))
    else
      processAliases
        { q with optionMap := updateA q.optionMap al i, aliasMap := updateA q.aliasMap al name }
        name i rest

/-- `ArgumentParser::argumentNew` (all argument types are stringified
before this point, so default value and choices are strings here).  The
`Argument` constructor checks run first, then for an option the name and
aliases are inserted, and for a positional argument the required-ordering
check guards the append.  The returned parser is the state at return or at
throw. -/
def argumentNew (p : ArgumentParser) (name help : Str) (expectCount : Nat)
    (required : Bool) (defaultValue : Str) (choices : List Str)
    (aliases : List Str) : ArgumentParser × Option ArgErr :=
  let ec := expectCount % 2 ^ 64
  if isFlag name = false ∧ (ec = 0 ∨ ec = UNLIM) then
    (p, some (.property name (str "expectCount")
        (str "positional argument should not be 0 or variable length")))
  else if isFlag name = true ∧ required = true ∧ ec = 0 then
    (p, some (.property name (str "required") (str "pure flag should not be required")))
  else if ¬ isChoiceL choices defaultValue then
    (p, some (.property name (str "defaultValue")
        (str "default value is not a choice for " ++ name)))
  else
    let a : Argument := ⟨name, help, ec, required, defaultValue, choices, false, []⟩
    let i := p.argsLen
    if isFlag name then
      processAliases
        { p with argsLen := i + 1,
                 args := fun j => if j = i then a else p.args j,
                 optionMap := updateA p.optionMap name i }
        name i aliases
    else
      if p.positionalArgList ≠ []
          ∧ p.positionalArgList.getLast?.map (fun j => (p.args j).required) = some false
          ∧ required = true then
        (p, some (.property name (str "required")
            (str "no required positional argument should be after non-required ones")))
      else
        ({ p with argsLen := i + 1,
                  args := fun j => if j = i then a else p.args j,
                  positionalArgList := p.positionalArgList ++ [i] }, none)

/-- `ArgumentParser::reset`: clear the parse state of every positional
argument and of every option map entry whose key is not an alias key. -/
def reset (p : ArgumentParser) : ArgumentParser :=
  let p1 := p.positionalArgList.foldl (fun q i => setArg q i (clearArg (getArg q i))) p
  p1.optionMap.foldl
    (fun q kv =>
      if lookupA p.aliasMap kv.1 = none then setArg q kv.2 (clearArg (getArg q kv.2)) else q)
    p1

/-- `ArgumentParser::checkArgument`: a required argument must be given and
(for finite arity) hold exactly `expectCount` values; a non-required
argument of finite arity is back-filled with the default value. -/
def checkArgument (a : Argument) : Except ArgErr Argument :=
  if a.required then
    if a.given = false then
      .error (.property a.name (str "required") (str "required but not given"))
    else if a.expectCount ≠ UNLIM ∧ a.argValueList.length ≠ a.expectCount then
      .error (.property a.name (str "expectCount") (str "too few arguments"))
    else .ok a
  else if a.expectCount ≠ UNLIM then
    .ok { a with argValueList :=
            a.argValueList ++
              List.replicate (a.expectCount - a.argValueList.length) a.defaultValue }
  else .ok a

/-- Arena indices visited by the post-scan check loop of `cmdlineIs`: all
positional arguments, then the option map entries whose key is not an
alias key. -/
def checkedIdxs (p : ArgumentParser) : List Nat :=
  p.positionalArgList ++
    (p.optionMap.filter (fun kv => lookupA p.aliasMap kv.1 = none)).map (fun kv => kv.2)

/-- One step of the check loop: a pending exception propagates, otherwise
`checkArgument` runs on the record at index `i`. -/
def checkIdx (acc : ArgumentParser × Option ArgErr) (i : Nat) : ArgumentParser × Option ArgErr :=
  match acc with
  | (q, some e) => (q, some e)
  | (q, none) =>
    match checkArgument (getArg q i) with
    | .error e => (q, some e)
    | .ok a => (setArg q i a, none)

/-- The post-scan check loop of `cmdlineIs`. -/
def checkPhase (p : ArgumentParser) : ArgumentParser × Option ArgErr :=
  (checkedIdxs p).foldl checkIdx (p, none)

/-- `ArgumentParser::argument(const std::string&)`. -/
def argumentOpt (p : ArgumentParser) (key : Str) : Option Nat :=
  lookupA p.optionMap key

/-- `ArgumentParser::argument(const size_t&)`. -/
def argumentPos (p : ArgumentParser) (idx : Nat) : Option Nat :=
  p.positionalArgList.get? idx

/-- Decimal encoding, fuel-based so that it reduces by computation; the
fuel is never exhausted when it is at least `n` (see `natToDecAux_congr`). -/
def natToDecAux : Nat → Nat → Str
  | 0, n => [Char.ofNat (48 + n % 10)]
  | fuel + 1, n =>
    if n < 10 then [Char.ofNat (48 + n)]
    else natToDecAux fuel (n / 10) ++ [Char.ofNat (48 + n % 10)]

/-- Decimal encoding of a natural number (`std::to_string`). -/
def natToDec (n : Nat) : Str := natToDecAux n n

/-- `ArgumentParser::strKey(const size_t&)`: `"@" + std::to_string(idx)`. -/
def strKeyPos (idx : Nat) : Str := '@' :: natToDec idx

/-- Value-consumption loop of the scan: consume up to `n` more tokens, as
long as tokens remain and the next token is not a flag; each consumed token
is choice-checked (raising the value exception on failure, with earlier
appends kept) and appended to the record at index `ai`.  Returns the
parser, the remaining tokens, and the pending exception. -/
def takeValues : ArgumentParser → Nat → Nat → List Str → ArgumentParser × List Str × Option ArgErr
  | p, _, _, [] => (p, [], none)
  | p, _, 0, ts => (p, ts, none)
  | p, ai, n + 1, t :: ts =>
    if isFlag t then (p, t :: ts, none)
    else if isChoiceL (getArg p ai).choices t then
      takeValues (setArg p ai (pushValue (getArg p ai) t)) ai n ts
    else
      (p, t :: ts,
       some (.value t (str "given value is not a choice for " ++ (getArg p ai).name)))

/-- Main loop of `ArgumentParser::cmdlineIs` over the tokens after the
program name.  A flag token is resolved through the option map, any other
token fills the next positional slot (and is itself the first consumed
value).  The fuel argument only bounds the recursion; every iteration
consumes a token or advances the positional cursor, so the fuel chosen by
`scanPhase` is never exhausted. -/
def scanLoop : Nat → ArgumentParser → List Str → Nat → Option (ArgumentParser × Option ArgErr)
  | _, p, [], _ => some (p, none)
  | 0, _, _ :: _, _ => none
  | fuel + 1, p, t :: rest, posIdx =>
    if isFlag t then
      match argumentOpt p t with
      | none => some (p, some (.key t (str "invalid option encountered")))
      | some ai =>
        match takeValues p ai (getArg p ai).expectCount rest with
        | (q, _, some e) => some (q, some e)
        | (q, rest2, none) => scanLoop fuel (setArg q ai (markGiven (getArg q ai))) rest2 posIdx
    else
      match argumentPos p posIdx with
      | none => some (p, some (.key (strKeyPos posIdx) (str "too many positional arguments")))
      | some ai =>
        match takeValues p ai (getArg p ai).expectCount (t :: rest) with
        | (q, _, some e) => some (q, some e)
        | (q, rest2, none) =>
            scanLoop fuel (setArg q ai (markGiven (getArg q ai))) rest2 (posIdx + 1)

/-- The scan half of `cmdlineIs`: reset, skip the program name, run the
loop.  The result is the parser state before the post-scan checks. -/
def scanPhase (p : ArgumentParser) (argv : List Str) : Option (ArgumentParser × Option ArgErr) :=
  scanLoop (argv.length + p.positionalArgList.length) (reset p) argv.tail 0

/-- `ArgumentParser::cmdlineIs`: scan, then the post-scan check loop.  The
result carries the parser state at return or at throw (`none`, never
produced on reachable registries, stands for a non-terminating run). -/
def cmdlineIs (p : ArgumentParser) (argv : List Str) : Option (ArgumentParser × Option ArgErr) :=
  match scanPhase p argv with
  | none => none
  | some (st, some e) => some (st, some e)
  | some (st, none) => some (checkPhase st)

/-- `Argument::argValue`: the `idx`-th stored value, or an empty-string
value cell when `idx` is out of range. -/
def argArgValue (a : Argument) (idx : Nat) : Str := a.argValueList.getD idx []

/-- `ArgumentParser::argValue<T>` for an option key: unknown-key exception
when the key is undeclared, otherwise the conversion `conv` applied to the
selected value cell. -/
def argValueOptWith {α : Type} (conv : Str → Except ArgErr α) (p : ArgumentParser)
    (key : Str) (valueIdx : Nat) : Except ArgErr α :=
  match argumentOpt p key with
  | none => .error (.key key (str "invalid argument name"))
  | some ai => conv (argArgValue (getArg p ai) valueIdx)

/-- `ArgumentParser::argValue<T>` for a positional index. -/
def argValuePosWith {α : Type} (conv : Str → Except ArgErr α) (p : ArgumentParser)
    (idx : Nat) (valueIdx : Nat) : Except ArgErr α :=
  match argumentPos p idx with
  | none => .error (.key (strKeyPos idx) (str "invalid argument name"))
  | some ai => conv (argArgValue (getArg p ai) valueIdx)

/-- The string-typed accessors (`value<std::string>` is the identity
conversion, which never fails). -/
def argValueOptStr (p : ArgumentParser) (key : Str) (valueIdx : Nat) : Except ArgErr Str :=
  argValueOptWith .ok p key valueIdx

/-- String-typed positional accessor. -/
def argValuePosStr (p : ArgumentParser) (idx : Nat) (valueIdx : Nat) : Except ArgErr Str :=
  argValuePosWith .ok p idx valueIdx

/-- Registries reachable by successful declarations in which every newly
declared option name and alias is fresh (not yet a key of the option map).
Freshness is the side condition under which the alias invariant is
preserved; the C4 counterexample shows it is needed. -/
inductive Reaches : ArgumentParser → Prop where
  | init (d : Str) : Reaches (emptyParser d)
  | stepOpt {p q : ArgumentParser} {n h dv : Str} {ec : Nat} {r : Bool}
      {cs : List Str} {as : List Str} :
      Reaches p → isFlag n = true →
      lookupA p.optionMap n = none →
      (∀ al ∈ as, lookupA p.optionMap al = none) →
      argumentNew p n h ec r dv cs as = (q, none) → Reaches q
  | stepPos {p q : ArgumentParser} {n h dv : Str} {ec : Nat} {r : Bool}
      {cs : List Str} {as : List Str} :
      Reaches p → isFlag n = false →
      argumentNew p n h ec r dv cs as = (q, none) → Reaches q

/-- The per-argument failure condition of `checkArgument`: required but
not given, or required with finite arity and a value count different from
`expectCount`. -/
def argFails (a : Argument) : Prop :=
  a.required = true ∧
    (a.given = false ∨ (a.expectCount ≠ UNLIM ∧ a.argValueList.length ≠ a.expectCount))

instance (a : Argument) : Decidable (argFails a) := by
  unfold argFails
  infer_instance

/-- The mutation performed by a successful `checkArgument`: non-required
finite-arity arguments are back-filled with the default value up to
`expectCount`; all others are untouched. -/
def fillArg (a : Argument) : Argument :=
  if a.required = false ∧ a.expectCount ≠ UNLIM then
    { a with argValueList :=
        a.argValueList ++
          List.replicate (a.expectCount - a.argValueList.length) a.defaultValue }
  else a

/-- The alias invariant of the registry: every recorded alias resolves in
the option map to the same arena index as its canonical name. -/
def AliasInv (p : ArgumentParser) : Prop :=
  ∀ a n, lookupA p.aliasMap a = some n →
    ∃ i, lookupA p.optionMap a = some i ∧ lookupA p.optionMap n = some i

/-- Every option-map entry is reachable under at least one key that is not
an alias key, so `reset` clears it; this fails exactly when a canonical
option name was also recorded as an alias key. -/
def ResetCovers (p : ArgumentParser) : Prop :=
  ∀ kv ∈ p.optionMap, ∃ kv2 ∈ p.optionMap,
    kv2.2 = kv.2 ∧ lookupA p.aliasMap kv2.1 = none

instance (p : ArgumentParser) : Decidable (ResetCovers p) := by
  unfold ResetCovers
  infer_instance

/-! ### Concrete example registries used by witnesses and counterexamples -/

/-- Registry with one option `-a`, arity 2, non-required, default `d`. -/
def exOptA : ArgumentParser :=
  (argumentNew (emptyParser []) (str "-a") [] 2 false (str "d") [] []).1

/-- A command line giving `-a` one of its two values. -/
def exArgvA : List Str := [str "prog", str "-a", str "x"]

/-- Scan-phase state of `exOptA` on `exArgvA`. -/
def exStA : ArgumentParser :=
  match scanPhase exOptA exArgvA with
  | some (s, _) => s
  | none => emptyParser []

/-- Registry with one required option `-b` of arity 1. -/
def exReqB : ArgumentParser :=
  (argumentNew (emptyParser []) (str "-b") [] 1 true [] [] []).1

/-- A command line satisfying `-b`. -/
def exArgvB : List Str := [str "prog", str "-b", str "v"]

/-- Scan-phase state of `exReqB` on `exArgvB`. -/
def exStB : ArgumentParser :=
  match scanPhase exReqB exArgvB with
  | some (s, _) => s
  | none => emptyParser []

/-- Registry with one option `-a`, arity 1, non-required, default `d`. -/
def exC1p : ArgumentParser :=
  (argumentNew (emptyParser []) (str "-a") [] 1 false (str "d") [] []).1

/-- Result of scanning `-a x -a y` against `exC1p`: the option is matched
twice and collects two values although `expectCount` is 1. -/
def exC1r : ArgumentParser × Option ArgErr :=
  (cmdlineIs exC1p [str "prog", str "-a", str "x", str "-a", str "y"]).getD
    (emptyParser [], none)

/-- Declaration of `-a` (non-required, arity 1, default `d`) with alias
`--x`: succeeds. -/
def clashD1 : ArgumentParser × Option ArgErr :=
  argumentNew (emptyParser []) (str "-a") [] 1 false (str "d") [] [str "--x"]

/-- Subsequent declaration of a new required option under the name `--x`,
which is already recorded as an alias key: also succeeds, shadowing the
alias entry of the option map. -/
def clashD2 : ArgumentParser × Option ArgErr :=
  argumentNew clashD1.1 (str "--x") [] 1 true [] [] []

/-- The registry after both clash declarations. -/
def clashP : ArgumentParser := clashD2.1

/-- First parse of the clash registry: `--x v`. -/
def clashR1 : ArgumentParser × Option ArgErr :=
  (cmdlineIs clashP [str "prog", str "--x", str "v"]).getD (emptyParser [], none)

/-- Re-parse of the resulting state with an empty command line. -/
def clashR2 : ArgumentParser × Option ArgErr :=
  (cmdlineIs clashR1.1 [str "prog"]).getD (emptyParser [], none)

/-- Parse of the clash registry with an empty command line. -/
def clashR3 : ArgumentParser × Option ArgErr :=
  (cmdlineIs clashP [str "prog"]).getD (emptyParser [], none)

/-- Declaration of option `-a` with the non-flag alias `x`: raises the
alias property error after the canonical name is already inserted. -/
def exC3 : ArgumentParser × Option ArgErr :=
  argumentNew (emptyParser []) (str "-a") [] 1 true [] [] [str "x"]

/-- Registry with one required option `-n` aliased `--nn`, with fresh
names. -/
def exN : ArgumentParser :=
  (argumentNew (emptyParser []) (str "-n") [] 1 true [] [] [str "--nn"]).1

/-! ### Utility lemmas -/

theorem lookupA_updateA {α : Type} (m : List (Str × α)) (k : Str) (v : α) (k2 : Str) :
    lookupA (updateA m k v) k2 = if k2 = k then some v else lookupA m k2 := by
  induction m with
  | nil => by_cases h : k2 = k <;> simp [updateA, lookupA, h]
  | cons kv t ih =>
    obtain ⟨k1, w⟩ := kv
    by_cases h1 : k1 = k
    · subst h1
      by_cases h2 : k2 = k1 <;> simp [updateA, lookupA, h2]
    · by_cases h2 : k2 = k1
      · subst h2
        simp [updateA, lookupA, h1, Ne.symm h1]
      · simp [updateA, lookupA, h1, h2, ih]

theorem getArg_setArg (p : ArgumentParser) (i : Nat) (a : Argument) (j : Nat) :
    getArg (setArg p i a) j = if j = i then a else getArg p j := rfl

@[simp] theorem setArg_description (p : ArgumentParser) (i : Nat) (a : Argument) :
    (setArg p i a).description = p.description := rfl

@[simp] theorem setArg_argsLen (p : ArgumentParser) (i : Nat) (a : Argument) :
    (setArg p i a).argsLen = p.argsLen := rfl

@[simp] theorem setArg_positional (p : ArgumentParser) (i : Nat) (a : Argument) :
    (setArg p i a).positionalArgList = p.positionalArgList := rfl

@[simp] theorem setArg_optionMap (p : ArgumentParser) (i : Nat) (a : Argument) :
    (setArg p i a).optionMap = p.optionMap := rfl

@[simp] theorem setArg_aliasMap (p : ArgumentParser) (i : Nat) (a : Argument) :
    (setArg p i a).aliasMap = p.aliasMap := rfl

theorem charAtNul_length_le (s : Str) (i : Nat) (h : s.length ≤ i) : charAtNul s i = nul := by
  simp [charAtNul, List.getD_eq_getElem?_getD, List.getElem?_eq_none h]

theorem charAtNul_append_length (xs r : Str) :
    charAtNul (xs ++ r) xs.length = r.headD nul := by
  simp [charAtNul, List.getD_eq_getElem?_getD,
    List.getElem?_append_right (Nat.le_refl xs.length)]
  cases r <;> simp

/-! ### C10: flag classification -/

/-- C10.  `isFlag` is total over all strings and returns `true` exactly when
the string starts with `-` or `--` immediately followed by an alphabetic
character; in particular the empty string, `"-"`, `"--"` and `"-5"` are not
flags, and the scan loop sends every non-flag token to the positional
branch (it is consumed as a positional token or, inside `takeValues`, as an
option value — never looked up as an option key). -/
theorem c10_flag_classification :
    (∀ s : Str, isFlag s = true ↔
      ((∃ c t, s = '-' :: c :: t ∧ isAlphaAscii c = true)
        ∨ (∃ c t, s = '-' :: '-' :: c :: t ∧ isAlphaAscii c = true)))
    ∧ isFlag [] = false
    ∧ isFlag (str "-") = false
    ∧ isFlag (str "--") = false
    ∧ isFlag (str "-5") = false
    ∧ (∀ (fuel : Nat) (p : ArgumentParser) (t : Str) (rest : List Str) (posIdx : Nat),
        isFlag t = false →
        scanLoop (fuel + 1) p (t :: rest) posIdx =
          match argumentPos p posIdx with
          | none => some (p, some (.key (strKeyPos posIdx) (str "too many positional arguments")))
          | some ai =>
            match takeValues p ai (getArg p ai).expectCount (t :: rest) with
            | (q, _, some e) => some (q, some e)
            | (q, rest2, none) =>
                scanLoop fuel (setArg q ai (markGiven (getArg q ai))) rest2 (posIdx + 1)) := by
  refine ⟨?_, by decide, by decide, by decide, by decide, ?_⟩
  · intro s
    match s with
    | [] => simp [isFlag]
    | [c] =>
      have e1 : charAtNul [c] 1 = nul := rfl
      have e2 : charAtNul [c] 2 = nul := rfl
      have e3 : isAlphaAscii nul = false := by decide
      simp [isFlag, e1, e2, e3]
    | c1 :: c2 :: t =>
      have h1 : charAtNul (c1 :: c2 :: t) 1 = c2 := rfl
      have h2 : charAtNul (c1 :: c2 :: t) 2 = t.headD nul := by
        cases t <;> rfl
      constructor
      · intro h
        simp only [isFlag, h1, h2, Bool.or_eq_true, Bool.and_eq_true, decide_eq_true_eq,
          List.take] at h
        rcases h with ⟨hc, ha⟩ | ⟨hc, ha⟩
        · left
          exact ⟨c2, t, by simp_all, ha⟩
        · right
          have hc1 : c1 = '-' := by simpa using congrArg (fun l => l.headD nul) hc
          have hc2 : c2 = '-' := by
            have := congrArg (fun l => l.tail.headD nul) hc
            simpa using this
          cases t with
          | nil => simp [nul] at ha; exact absurd ha (by decide)
          | cons c3 t3 => exact ⟨c3, t3, by simp_all, by simpa using ha⟩
      · intro h
        rcases h with ⟨c, r, hs, ha⟩ | ⟨c, r, hs, ha⟩
        · obtain ⟨e1, e2, e3⟩ : c1 = '-' ∧ c2 = c ∧ t = r := by
            refine ⟨?_, ?_, ?_⟩ <;> [skip; skip; skip] <;>
              injection hs with i1 i2 <;> try assumption
            injection i2 with j1 j2
            all_goals simp_all
          subst e1; subst e2
          simp [isFlag, h1, ha]
        · obtain ⟨e1, e2, e3⟩ : c1 = '-' ∧ c2 = '-' ∧ t = c :: r := by
            injection hs with i1 i2
            injection i2 with j1 j2
            simp_all
          subst e1; subst e2; subst e3
          simp [isFlag, h2, ha]
  · intro fuel p t rest posIdx h
    simp only [scanLoop, h]
    rfl

/-! ### C6: signed 32-bit conversion -/

theorem land_highmask_eq_zero {n k x : Nat} (hk : k ≤ n) (hx : x < 2 ^ n) :
    x &&& (2 ^ n - 2 ^ k) = 0 ↔ x < 2 ^ k := by
  have hmask : 2 ^ n - 2 ^ k = (2 ^ (n - k) - 1) <<< k := by
    rw [Nat.shiftLeft_eq, Nat.sub_mul, Nat.one_mul, ← Nat.pow_add]
    congr 2
    omega
  rw [hmask]
  constructor
  · intro h
    apply Nat.lt_pow_two_of_testBit
    intro i hi
    by_cases hin : i < n
    · have hb : (x &&& (2 ^ (n - k) - 1) <<< k).testBit i = false := by
        rw [h]
        exact Nat.zero_testBit i
      rw [Nat.testBit_and, Nat.testBit_shiftLeft, Nat.testBit_two_pow_sub_one] at hb
      have d1 : decide (i ≥ k) = true := by simpa using hi
      have d2 : decide (i - k < n - k) = true := by
        simp only [decide_eq_true_eq]
        omega
      rw [d1, d2] at hb
      simpa using hb
    · exact Nat.testBit_lt_two_pow
        (lt_of_lt_of_le hx (Nat.pow_le_pow_right (by norm_num) (by omega)))
  · intro h
    apply Nat.eq_of_testBit_eq
    intro i
    rw [Nat.testBit_and, Nat.testBit_shiftLeft, Nat.testBit_two_pow_sub_one, Nat.zero_testBit]
    by_cases hik : k ≤ i
    · have hxb : x.testBit i = false :=
        Nat.testBit_lt_two_pow (lt_of_lt_of_le h (Nat.pow_le_pow_right (by norm_num) hik))
      rw [hxb]
      simp
    · have d1 : decide (i ≥ k) = false := by simpa using hik
      rw [d1]
      simp

theorem maskI32_test_iff (v : Int) (h1 : -(2 ^ 63) ≤ v) (h2 : v ≤ 2 ^ 63 - 1) :
    (bits64 v &&& maskI32 ≠ 0 ∧ bits64 (-v - 1) &&& maskI32 ≠ 0)
      ↔ (v < -(2 ^ 31) ∨ 2 ^ 31 - 1 < v) := by
  have e64 : ((2 : Int) ^ 64) = ((2 ^ 64 : Nat) : Int) := by norm_num
  by_cases hv : 0 ≤ v
  · have hb : bits64 v = v.toNat := by
      unfold bits64
      rw [Int.emod_eq_of_lt hv (by omega)]
    have hbn : bits64 (-v - 1) = 2 ^ 64 - 1 - v.toNat := by
      unfold bits64
      have hm : (-v - 1) % 2 ^ 64 = -v - 1 + 2 ^ 64 := by omega
      rw [hm]
      omega
    have hx : v.toNat < 2 ^ 64 := by omega
    have hxn : 2 ^ 64 - 1 - v.toNat < 2 ^ 64 := by omega
    have l1 := land_highmask_eq_zero (n := 64) (k := 31) (by omega) hx
    have l2 := land_highmask_eq_zero (n := 64) (k := 31) (by omega) hxn
    rw [hb, hbn]
    unfold maskI32
    constructor
    · rintro ⟨ha, _⟩
      right
      have := (not_iff_not.mpr l1).mp ha
      omega
    · intro hc
      have hv31 : ¬ v.toNat < 2 ^ 31 := by omega
      have hn31 : ¬ 2 ^ 64 - 1 - v.toNat < 2 ^ 31 := by omega
      exact ⟨(not_iff_not.mpr l1).mpr hv31, (not_iff_not.mpr l2).mpr hn31⟩
  · have hb : bits64 v = (v + 2 ^ 64).toNat := by
      unfold bits64
      have hm : v % 2 ^ 64 = v + 2 ^ 64 := by omega
      rw [hm]
    have hbn : bits64 (-v - 1) = (-v - 1).toNat := by
      unfold bits64
      rw [Int.emod_eq_of_lt (by omega) (by omega)]
    have hx : (v + 2 ^ 64).toNat < 2 ^ 64 := by omega
    have hxn : (-v - 1).toNat < 2 ^ 64 := by omega
    have l1 := land_highmask_eq_zero (n := 64) (k := 31) (by omega) hx
    have l2 := land_highmask_eq_zero (n := 64) (k := 31) (by omega) hxn
    rw [hb, hbn]
    unfold maskI32
    constructor
    · rintro ⟨_, ha⟩
      left
      have := (not_iff_not.mpr l2).mp ha
      omega
    · intro hc
      have hv31 : ¬ (v + 2 ^ 64).toNat < 2 ^ 31 := by omega
      have hn31 : ¬ (-v - 1).toNat < 2 ^ 31 := by omega
      exact ⟨(not_iff_not.mpr l1).mpr hv31, (not_iff_not.mpr l2).mpr hn31⟩

/-- C6.  `value<int32_t>` parses the token as a signed 64-bit integer and
range-checks through the sign-extension mask: `"2147483648"` fails,
`"-2147483648"` yields the signed 32-bit minimum, and in general the
conversion succeeds with value `v` exactly when the 64-bit parse succeeds
with value `v` and `v` lies in `[-2^31, 2^31 - 1]`. -/
theorem c6_int32_range :
    toInt32 (str "2147483648") = .error (.value (str "2147483648") (str "convert to int32"))
    ∧ toInt32 (str "-2147483648") = .ok (-(2 ^ 31))
    ∧ ∀ (s : Str) (v : Int),
        toInt32 s = .ok v ↔ (toInt64 s = .ok v ∧ -(2 ^ 31) ≤ v ∧ v ≤ 2 ^ 31 - 1) := by
  refine ⟨by decide, by decide, ?_⟩
  intro s v
  simp only [toInt32, toInt64]
  split
  case isTrue hf =>
    simp
  case isFalse hf =>
    have hrange : -(2 ^ 63) ≤ i64OfParse (intParse s)
        ∧ i64OfParse (intParse s) ≤ 2 ^ 63 - 1 := by
      unfold safeStrToFails at hf
      push_neg at hf
      omega
    split
    case isTrue hm =>
      have hout := (maskI32_test_iff _ hrange.1 hrange.2).mp hm
      constructor
      · intro hc
        cases hc
      · rintro ⟨hok, ha, hb⟩
        injection hok with he
        omega
    case isFalse hm =>
      have hin : ¬ (i64OfParse (intParse s) < -(2 ^ 31) ∨ 2 ^ 31 - 1 < i64OfParse (intParse s)) :=
        fun hc => hm ((maskI32_test_iff _ hrange.1 hrange.2).mpr hc)
      have hw : wrap32 (i64OfParse (intParse s)) = i64OfParse (intParse s) := by
        unfold wrap32
        omega
      rw [hw]
      constructor
      · intro hc
        injection hc with he
        subst he
        exact ⟨rfl, by omega⟩
      · rintro ⟨hok, _, _⟩
        injection hok with he
        rw [he]

/-- C6 witness: the characterisation applied at the token `"7"`. -/
theorem c6_int32_range_witness :
    toInt64 (str "7") = .ok 7 ∧ -(2 ^ 31) ≤ (7 : Int) ∧ (7 : Int) ≤ 2 ^ 31 - 1 :=
  (c6_int32_range.2.2 (str "7") 7).mp (by decide)

/-! ### C7: strict numeral recognition -/

/-- Shape of the tokens accepted by the base-10 integer conversions:
either the token starts with a NUL byte (the C string read through
`c_str()` is then empty), or it is optional white space, an optional
sign, a nonempty digit run, and nothing further before the end or an
embedded NUL byte. -/
def IntTokenShape (s : Str) : Prop :=
  s.head? = some nul ∨
    ∃ ws sg ds r, s = ws ++ sg ++ ds ++ r
      ∧ (∀ c ∈ ws, isSpaceC c = true)
      ∧ (sg = [] ∨ sg = ['-'] ∨ sg = ['+'])
      ∧ ds ≠ []
      ∧ (∀ c ∈ ds, isDigitC c = true)
      ∧ (r = [] ∨ r.head? = some nul)

theorem drop_takeWhile_length (p : Char → Bool) (s : Str) :
    s.drop (s.takeWhile p).length = s.dropWhile p := by
  induction s with
  | nil => rfl
  | cons c t ih =>
    by_cases h : p c
    · simp [List.takeWhile_cons_of_pos h, List.dropWhile_cons_of_pos h, ih]
    · simp [List.takeWhile_cons_of_neg h, List.dropWhile_cons_of_neg h]

theorem not_safeStrToFails_parts {s : Str} {endPos : Nat} {rangeErr : Prop}
    [Decidable rangeErr] (h : ¬ safeStrToFails s endPos rangeErr) :
    s ≠ [] ∧ charAtNul s endPos = nul ∧ ¬ rangeErr := by
  unfold safeStrToFails at h
  push_neg at h
  exact h

theorem shape_nul_head (s : Str) (hne : s ≠ []) (hend : charAtNul s 0 = nul) :
    IntTokenShape s := by
  left
  cases s with
  | nil => exact absurd rfl hne
  | cons c t =>
    have hc : c = nul := hend
    rw [hc]
    rfl

theorem shape_end (s ws sg r1 : Str)
    (hs : s = ws ++ sg ++ r1)
    (hws : ∀ c ∈ ws, isSpaceC c = true)
    (hsg : sg = [] ∨ sg = ['-'] ∨ sg = ['+'])
    (hds : r1.takeWhile isDigitC ≠ [])
    (hend : charAtNul s (ws.length + sg.length + (r1.takeWhile isDigitC).length) = nul) :
    IntTokenShape s := by
  right
  refine ⟨ws, sg, r1.takeWhile isDigitC, r1.dropWhile isDigitC, ?_, hws, hsg, hds,
    fun c hc => List.mem_takeWhile_imp hc, ?_⟩
  · rw [hs]
    simp only [List.append_assoc, List.takeWhile_append_dropWhile]
  · have hlen : ws.length + sg.length + (r1.takeWhile isDigitC).length =
        (ws ++ sg ++ r1.takeWhile isDigitC).length := by
      simp only [List.length_append]
    have hs2 : s = (ws ++ sg ++ r1.takeWhile isDigitC) ++ r1.dropWhile isDigitC := by
      rw [hs]
      simp only [List.append_assoc, List.takeWhile_append_dropWhile]
    rw [hlen, hs2, charAtNul_append_length] at hend
    cases hrr : r1.dropWhile isDigitC with
    | nil => exact Or.inl rfl
    | cons c t =>
      right
      rw [hrr] at hend
      simp only [List.headD] at hend
      rw [hend]
      rfl

theorem intShape_of_scan (s : Str) (hne : s ≠ [])
    (hend : charAtNul s (intParse s).endPos = nul) : IntTokenShape s := by
  unfold intParse at hend
  simp only [drop_takeWhile_length] at hend
  by_cases hsg : (s.dropWhile isSpaceC).head? = some '-'
      ∨ (s.dropWhile isSpaceC).head? = some '+'
  · rw [if_pos hsg] at hend
    cases hr : s.dropWhile isSpaceC with
    | nil =>
      rw [hr] at hsg
      simp at hsg
    | cons a t =>
      rw [hr] at hend hsg
      simp only [List.drop_succ_cons, List.drop_zero] at hend
      by_cases hds : t.takeWhile isDigitC = []
      · rw [if_pos hds] at hend
        exact shape_nul_head s hne hend
      · rw [if_neg hds] at hend
        apply shape_end s (s.takeWhile isSpaceC) [a] t
        · conv_lhs => rw [← List.takeWhile_append_dropWhile isSpaceC s, hr]
          simp
        · intro c hc
          exact List.mem_takeWhile_imp hc
        · rcases hsg with hsg | hsg
          · right; left
            have : a = '-' := by injection hsg
            rw [this]
          · right; right
            have : a = '+' := by injection hsg
            rw [this]
        · exact hds
        · simpa using hend
  · rw [if_neg hsg] at hend
    simp only [List.drop_zero] at hend
    by_cases hds : (s.dropWhile isSpaceC).takeWhile isDigitC = []
    · rw [if_pos hds] at hend
      exact shape_nul_head s hne hend
    · rw [if_neg hds] at hend
      apply shape_end s (s.takeWhile isSpaceC) [] (s.dropWhile isSpaceC)
      · simp [List.takeWhile_append_dropWhile]
      · intro c hc
        exact List.mem_takeWhile_imp hc
      · exact Or.inl rfl
      · exact hds
      · simpa using hend

/-- C7 (amended).  For each integer target type the conversion succeeds
only on tokens of the accepted shape: either the token begins with a NUL
byte (the C string handed to `strtoull` is then empty, no conversion is
performed, and the result is `0` — witnessed concretely on the token
`"\x00x99"`), or it is optional white space, an optional single sign, a
nonempty decimal digit run, and nothing further before the end or an
embedded NUL byte, so any other character anywhere makes it fail; the
three spec example tokens and the empty token fail for all six numeric
target types; and out-of-range magnitudes fail with `ERANGE` for the
64-bit integer conversions. -/
theorem c7_numeral_strictness :
    (∀ s v, toUint64 s = .ok v → IntTokenShape s)
    ∧ (∀ s v, toInt64 s = .ok v → IntTokenShape s)
    ∧ (∀ s v, toUint32 s = .ok v → IntTokenShape s)
    ∧ (∀ s v, toInt32 s = .ok v → IntTokenShape s)
    ∧ (∀ t ∈ [str "12x34", str "x1234", str "1234x", []],
        (∃ r, toUint64 t = .error (.value t r))
        ∧ (∃ r, toInt64 t = .error (.value t r))
        ∧ (∃ r, toUint32 t = .error (.value t r))
        ∧ (∃ r, toInt32 t = .error (.value t r))
        ∧ (∃ r, toFloatV t = .error (.value t r))
        ∧ (∃ r, toDoubleV t = .error (.value t r)))
    ∧ (∃ r, toUint64 (str "18446744073709551616") = .error (.value (str "18446744073709551616") r))
    ∧ (∃ r, toInt64 (str "9223372036854775808") = .error (.value (str "9223372036854775808") r))
    ∧ toUint64 (nul :: str "x99") = .ok 0 := by
  have h64 : ∀ s v, toUint64 s = .ok v → IntTokenShape s := by
    intro s v h
    simp only [toUint64] at h
    split at h
    · cases h
    next hf =>
      obtain ⟨hne, hend, _⟩ := not_safeStrToFails_parts hf
      exact intShape_of_scan s hne hend
  have hi64 : ∀ s v, toInt64 s = .ok v → IntTokenShape s := by
    intro s v h
    simp only [toInt64] at h
    split at h
    · cases h
    next hf =>
      obtain ⟨hne, hend, _⟩ := not_safeStrToFails_parts hf
      exact intShape_of_scan s hne hend
  have h32 : ∀ s v, toUint32 s = .ok v → IntTokenShape s := by
    intro s v h
    simp only [toUint32] at h
    split at h
    · cases h
    next hf =>
      obtain ⟨hne, hend, _⟩ := not_safeStrToFails_parts hf
      exact intShape_of_scan s hne hend
  have hi32 : ∀ s v, toInt32 s = .ok v → IntTokenShape s := by
    intro s v h
    simp only [toInt32] at h
    split at h
    · cases h
    next hf =>
      obtain ⟨hne, hend, _⟩ := not_safeStrToFails_parts hf
      exact intShape_of_scan s hne hend
  refine ⟨h64, hi64, h32, hi32, ?_,
    ⟨str "convert to uint64", by decide⟩, ⟨str "convert to int64", by decide⟩, by decide⟩
  intro t ht
  fin_cases ht <;>
    exact ⟨⟨str "convert to uint64", by decide⟩, ⟨str "convert to int64", by decide⟩,
      ⟨str "convert to uint32", by decide⟩, ⟨str "convert to int32", by decide⟩,
      ⟨str "convert to float", by decide⟩, ⟨str "convert to double", by decide⟩⟩

/-- C7 witness: the shape characterisation applied at the token `"42"`,
and the example failures applied at `"12x34"`. -/
theorem c7_numeral_strictness_witness :
    IntTokenShape (str "42") ∧ (∃ r, toDoubleV (str "12x34") = .error (.value (str "12x34") r)) :=
  ⟨c7_numeral_strictness.1 (str "42") 42 (by decide),
   (c7_numeral_strictness.2.2.2.2.1 (str "12x34") (by decide)).2.2.2.2.2⟩

/-- C10 witness: the branch equation of the scan loop applied to the
non-flag token `"5"` with an empty registry, evaluated concretely. -/
theorem c10_flag_classification_witness :
    scanLoop 1 (emptyParser []) [str "5"] 0 =
      some (emptyParser [], some (.key (strKeyPos 0) (str "too many positional arguments"))) := by
  have h := c10_flag_classification.2.2.2.2.2 0 (emptyParser []) (str "5") [] 0 (by decide)
  rw [h]
  exact rfl

/-- C7 counterexample: the token `" 12"` contains a non-numeral character
(a space) before the numeral portion, yet the unsigned 64-bit conversion
succeeds — `strtoull` skips leading white space — refuting the claim that
every such token fails conversion for every numeric target type. -/
theorem c7_whitespace_accepted : toUint64 (str " 12") = .ok 12 := by decide

/-! ### C8: decimal round-trip -/

theorem natToDecAux_congr : ∀ f1 f2 n : Nat, n ≤ f1 → n ≤ f2 →
    natToDecAux f1 n = natToDecAux f2 n := by
  intro f1
  induction f1 with
  | zero =>
    intro f2 n h1 _
    have hn : n = 0 := by omega
    subst hn
    cases f2 <;> simp [natToDecAux]
  | succ f ih =>
    intro f2 n h1 h2
    cases f2 with
    | zero =>
      have hn : n = 0 := by omega
      subst hn
      simp [natToDecAux]
    | succ f2a =>
      simp only [natToDecAux]
      by_cases hn : n < 10
      · simp [hn]
      · simp only [hn, if_false]
        rw [ih f2a (n / 10) (by omega) (by omega)]

theorem natToDec_low {n : Nat} (h : n < 10) : natToDec n = [Char.ofNat (48 + n)] := by
  cases n with
  | zero => rfl
  | succ k => simp [natToDec, natToDecAux, h]

theorem natToDec_high {n : Nat} (h : 10 ≤ n) :
    natToDec n = natToDec (n / 10) ++ [Char.ofNat (48 + n % 10)] := by
  obtain ⟨m, rfl⟩ : ∃ m, n = m + 1 := ⟨n - 1, by omega⟩
  simp only [natToDec, natToDecAux]
  rw [if_neg (by omega)]
  rw [natToDecAux_congr m ((m + 1) / 10) ((m + 1) / 10) (by omega) (by omega)]

theorem foldl_digits (a : Nat) (l : Str) :
    l.foldl (fun a c => 10 * a + digVal c) a =
      a * 10 ^ l.length + l.foldl (fun a c => 10 * a + digVal c) 0 := by
  induction l generalizing a with
  | nil => simp
  | cons c t ih =>
    rw [List.foldl_cons, List.foldl_cons, ih (10 * a + digVal c), ih (10 * 0 + digVal c)]
    simp only [List.length_cons, Nat.pow_succ]
    ring

theorem digitsVal_cons (c : Char) (t : Str) :
    digitsVal (c :: t) = digVal c * 10 ^ t.length + digitsVal t := by
  unfold digitsVal
  rw [List.foldl_cons, foldl_digits]
  have h0 : (10 * 0 + digVal c) = digVal c := by omega
  rw [h0]

theorem digitsVal_snoc (l : Str) (c : Char) :
    digitsVal (l ++ [c]) = 10 * digitsVal l + digVal c := by
  unfold digitsVal
  rw [List.foldl_append]
  rfl

theorem digVal_lt_ten {c : Char} (h : isDigitC c = true) : digVal c < 10 := by
  simp only [isDigitC, Bool.and_eq_true, decide_eq_true_eq] at h
  unfold digVal
  omega

theorem digitChar_digVal {c : Char} (h : isDigitC c = true) :
    Char.ofNat (48 + digVal c) = c := by
  simp only [isDigitC, Bool.and_eq_true, decide_eq_true_eq] at h
  have he : 48 + digVal c = c.toNat := by
    unfold digVal
    omega
  rw [he, Char.ofNat_toNat]

theorem takeWhile_all {p : Char → Bool} {l : Str} (h : ∀ c ∈ l, p c = true) :
    l.takeWhile p = l := by
  induction l with
  | nil => rfl
  | cons c t ih =>
    rw [List.takeWhile_cons_of_pos (h c (by simp))]
    rw [ih (fun x hx => h x (by simp [hx]))]

theorem natToDec_digitsVal : ∀ s : Str, s ≠ [] → (∀ c ∈ s, isDigitC c = true) →
    (s.head? = some '0' → s = ['0']) → natToDec (digitsVal s) = s := by
  intro s
  induction s using List.reverseRecOn with
  | nil =>
    intro h
    exact absurd rfl h
  | append_singleton xs c ih =>
    intro _ hdig hcan
    have hcd : isDigitC c = true := hdig c (by simp)
    by_cases hxs : xs = []
    · subst hxs
      simp only [List.nil_append]
      have hv : digitsVal [c] = digVal c := by
        rw [digitsVal_cons]
        simp [digitsVal]
      rw [hv, natToDec_low (digVal_lt_ten hcd), digitChar_digVal hcd]
    · have hxd : ∀ x ∈ xs, isDigitC x = true := fun x hx => hdig x (by simp [hx])
      have hne0 : xs.head? ≠ some '0' := by
        intro hh
        have h0 : (xs ++ [c]).head? = some '0' := by
          cases xs with
          | nil => exact absurd rfl hxs
          | cons a t => simpa using hh
        have h1 := hcan h0
        have h2 : xs.length + 1 = 1 := by
          have h3 := congrArg List.length h1
          simpa using h3
        exact hxs (List.length_eq_zero.mp (by omega))
      have hval : 1 ≤ digitsVal xs := by
        cases xs with
        | nil => exact absurd rfl hxs
        | cons a t =>
          have ha : isDigitC a = true := hxd a (by simp)
          have ha0 : a ≠ '0' := by
            intro h
            apply hne0
            rw [h]
            rfl
          have hd1 : 1 ≤ digVal a := by
            by_cases hz : a.toNat = 48
            · exfalso
              apply ha0
              have h1 := Char.ofNat_toNat a
              rw [hz] at h1
              rw [← h1]
            · simp only [isDigitC, Bool.and_eq_true, decide_eq_true_eq] at ha
              unfold digVal
              omega
          rw [digitsVal_cons]
          have hp : 1 ≤ 10 ^ t.length := Nat.one_le_pow _ _ (by norm_num)
          exact le_trans (by simpa using Nat.mul_le_mul hd1 hp) (Nat.le_add_right _ _)
      rw [digitsVal_snoc]
      have hd10 : digVal c < 10 := digVal_lt_ten hcd
      have h10 : 10 ≤ 10 * digitsVal xs + digVal c := by omega
      rw [natToDec_high h10]
      have hdiv : (10 * digitsVal xs + digVal c) / 10 = digitsVal xs := by omega
      have hmod : (10 * digitsVal xs + digVal c) % 10 = digVal c := by omega
      rw [hdiv, hmod, digitChar_digVal hcd, ih hxs hxd (fun hh => absurd hh hne0)]

theorem toUint64_digits (s : Str) (hne : s ≠ []) (hdig : ∀ c ∈ s, isDigitC c = true)
    (hlt : digitsVal s < 2 ^ 64) : toUint64 s = .ok (digitsVal s) := by
  have h1 : s.takeWhile isSpaceC = [] := by
    cases s with
    | nil => rfl
    | cons c t =>
      have hc := hdig c (by simp)
      have hns : isSpaceC c = false := by
        simp only [isDigitC, Bool.and_eq_true, decide_eq_true_eq] at hc
        simp only [isSpaceC, Bool.or_eq_false_iff, beq_eq_false_iff_ne, ne_eq,
          Bool.and_eq_false_iff, decide_eq_false_iff_not]
        omega
      rw [List.takeWhile_cons_of_neg (by simp [hns])]
  have hsign : ¬ (s.head? = some '-' ∨ s.head? = some '+') := by
    cases s with
    | nil => simp
    | cons c t =>
      have hc := hdig c (by simp)
      simp only [List.head?_cons, Option.some.injEq]
      rintro (rfl | rfl) <;> exact absurd hc (by decide)
  have hip : intParse s = ⟨false, digitsVal s, s.length, true⟩ := by
    unfold intParse
    rw [h1]
    simp only [List.length_nil, List.drop_zero]
    rw [if_neg hsign]
    simp only [List.drop_zero]
    rw [takeWhile_all hdig]
    rw [if_neg hne]
    have hnotminus : decide (s.head? = some '-') = false := by
      simp only [decide_eq_false_iff_not]
      intro h
      exact hsign (Or.inl h)
    simp [hnotminus]
  have hfail : ¬ safeStrToFails s (intParse s).endPos (2 ^ 64 - 1 < (intParse s).mag) := by
    rw [hip]
    unfold safeStrToFails
    push_neg
    refine ⟨hne, ?_, by simpa using Nat.lt_succ_iff.mp (by simpa using hlt)⟩
    exact charAtNul_length_le s s.length (Nat.le_refl _)
  simp only [toUint64]
  rw [if_neg hfail, hip]
  simp

/-- C8 (amended).  For every nonempty decimal digit string with no sign and
no leading zero (or the single digit string `"0"`) whose value is in the
unsigned 64-bit range, the Value Cell conversion to `uint64_t` succeeds
with the digit value and the decimal re-encoding of that value yields the
original numeral. -/
theorem c8_roundtrip (s : Str) (hne : s ≠ []) (hdig : ∀ c ∈ s, isDigitC c = true)
    (hcan : s.head? = some '0' → s = ['0']) (hlt : digitsVal s < 2 ^ 64) :
    toUint64 s = .ok (digitsVal s) ∧ natToDec (digitsVal s) = s :=
  ⟨toUint64_digits s hne hdig hlt, natToDec_digitsVal s hne hdig hcan⟩

/-- C8 witness: the round trip applied at the numeral `"42"`. -/
theorem c8_roundtrip_witness :
    toUint64 (str "42") = .ok (digitsVal (str "42")) ∧ natToDec (digitsVal (str "42")) = str "42" :=
  c8_roundtrip (str "42") (by decide) (by decide) (by decide) (by decide)

/-- C8 counterexample: `"01"` is a valid decimal digit string with no sign
whose value is in range, the conversion succeeds with value 1, but the
decimal re-encoding of 1 is `"1"`, not the original numeral `"01"`. -/
theorem c8_leading_zero : toUint64 (str "01") = .ok 1 ∧ natToDec 1 ≠ str "01" := by
  constructor
  · decide
  · decide

/-! ### C9: typed read access -/

theorem argArgValue_out {a : Argument} {i : Nat} (h : a.argValueList.length ≤ i) :
    argArgValue a i = [] := by
  unfold argArgValue
  simp [List.getD_eq_getElem?_getD, List.getElem?_eq_none h]

/-- C9.  The typed read accessor raises a key error exactly when the key
resolves to no declared argument (undeclared option string, or positional
index at or beyond the declared positional count); for a declared key with
a value index at or beyond the stored value count it instead returns the
conversion of an empty-string Value Cell, which itself may raise a
value-conversion error, as for integer targets. -/
theorem c9_read_accessors :
    (∀ (p : ArgumentParser) (k : Str) (i : Nat),
        (∃ r, argValueOptStr p k i = .error (.key k r)) ↔ argumentOpt p k = none)
    ∧ (∀ (p : ArgumentParser) (idx i : Nat),
        (∃ r, argValuePosStr p idx i = .error (.key (strKeyPos idx) r)) ↔
          p.positionalArgList.length ≤ idx)
    ∧ (∀ {α : Type} (conv : Str → Except ArgErr α) (p : ArgumentParser) (k : Str) (i ai : Nat),
        argumentOpt p k = some ai → (getArg p ai).argValueList.length ≤ i →
        argValueOptWith conv p k i = conv [])
    ∧ (∀ {α : Type} (conv : Str → Except ArgErr α) (p : ArgumentParser) (idx i ai : Nat),
        argumentPos p idx = some ai → (getArg p ai).argValueList.length ≤ i →
        argValuePosWith conv p idx i = conv [])
    ∧ (∃ r, toUint64 [] = .error (.value [] r)) := by
  refine ⟨?_, ?_, ?_, ?_, str "convert to uint64", by decide⟩
  · intro p k i
    unfold argValueOptStr argValueOptWith
    cases h : argumentOpt p k with
    | none => simp [h]
    | some ai => simp [h]
  · intro p idx i
    unfold argValuePosStr argValuePosWith
    cases h : argumentPos p idx with
    | none =>
      simp only [h]
      unfold argumentPos at h
      rw [List.get?_eq_none] at h
      simp [h]
    | some ai =>
      simp only [h]
      unfold argumentPos at h
      constructor
      · rintro ⟨r, hr⟩
        cases hr
      · intro hlen
        rw [List.get?_eq_none.mpr hlen] at h
        cases h
  · intro α conv p k i ai h hlen
    unfold argValueOptWith
    simp only [h]
    rw [argArgValue_out hlen]
  · intro α conv p idx i ai h hlen
    unfold argValuePosWith
    simp only [h]
    rw [argArgValue_out hlen]

/-- C9 witness: on a registry with one option `-a` (no parsed values), the
out-of-range read returns the conversion of an empty cell, and the
undeclared key `-z` raises a key error. -/
theorem c9_read_accessors_witness :
    argValueOptWith toUint64 ((argumentNew (emptyParser []) (str "-a") [] 1 false [] [] []).1)
        (str "-a") 0 = toUint64 []
    ∧ argumentOpt ((argumentNew (emptyParser []) (str "-a") [] 1 false [] [] []).1)
        (str "-z") = none := by
  constructor
  · exact c9_read_accessors.2.2.1 toUint64 _ (str "-a") 0 0 (by decide) (by decide)
  · exact (c9_read_accessors.1 _ (str "-z") 0).mp ⟨str "invalid argument name", by decide⟩

/-! ### The post-scan check loop -/

theorem fillArg_required {a : Argument} (h : a.required = true) : fillArg a = a := by
  unfold fillArg
  rw [if_neg (by simp [h])]

theorem fillArg_fields (a : Argument) :
    (fillArg a).required = a.required ∧ (fillArg a).given = a.given
    ∧ (fillArg a).expectCount = a.expectCount := by
  unfold fillArg
  split <;> simp

theorem fillArg_expand (b : Argument) (hc : b.required = false ∧ b.expectCount ≠ UNLIM) :
    fillArg b =
      { b with argValueList :=
          b.argValueList ++ List.replicate (b.expectCount - b.argValueList.length) b.defaultValue } := by
  unfold fillArg
  rw [if_pos hc]

theorem fillArg_fillArg (a : Argument) : fillArg (fillArg a) = fillArg a := by
  by_cases h : a.required = false ∧ a.expectCount ≠ UNLIM
  · have hff := fillArg_fields a
    have hc : (fillArg a).required = false ∧ (fillArg a).expectCount ≠ UNLIM :=
      ⟨by rw [hff.1]; exact h.1, by rw [hff.2.2]; exact h.2⟩
    have hl : (fillArg a).argValueList =
        a.argValueList ++ List.replicate (a.expectCount - a.argValueList.length) a.defaultValue := by
      unfold fillArg
      rw [if_pos h]
    have hrep : List.replicate ((fillArg a).expectCount - (fillArg a).argValueList.length)
        (fillArg a).defaultValue = [] := by
      rw [hff.2.2, hl]
      have hz : a.expectCount -
          (a.argValueList ++
            List.replicate (a.expectCount - a.argValueList.length) a.defaultValue).length = 0 := by
        simp only [List.length_append, List.length_replicate]
        omega
      rw [hz]
      rfl
    rw [fillArg_expand (fillArg a) hc, hrep, List.append_nil]
  · have ha : fillArg a = a := by
      unfold fillArg
      rw [if_neg h]
    rw [ha, ha]

theorem argFails_fillArg (a : Argument) : argFails (fillArg a) ↔ argFails a := by
  by_cases h : a.required = true
  · rw [fillArg_required h]
  · unfold argFails
    have hf := fillArg_fields a
    rw [hf.1]
    simp_all

theorem checkArgument_err_prop {a : Argument} {e : ArgErr}
    (h : checkArgument a = .error e) : ∃ k pr r, e = .property k pr r := by
  unfold checkArgument at h
  split_ifs at h <;> first
    | (injection h with he; exact ⟨_, _, _, he.symm⟩)
    | cases h

theorem checkArgument_of_fails {a : Argument} (h : argFails a) :
    ∃ e, checkArgument a = .error e := by
  obtain ⟨hreq, hor⟩ := h
  unfold checkArgument
  rw [if_pos hreq]
  rcases hor with hg | ⟨hec, hcnt⟩
  · rw [if_pos hg]
    exact ⟨_, rfl⟩
  · by_cases hg : a.given = false
    · rw [if_pos hg]
      exact ⟨_, rfl⟩
    · rw [if_neg hg, if_pos ⟨hec, hcnt⟩]
      exact ⟨_, rfl⟩

theorem checkArgument_of_ok {a : Argument} (h : ¬ argFails a) :
    checkArgument a = .ok (fillArg a) := by
  unfold checkArgument argFails at *
  by_cases hreq : a.required = true
  · rw [if_pos hreq]
    push_neg at h
    obtain ⟨hg, hcnt⟩ := h hreq
    rw [if_neg (by simp [hg]), if_neg (by tauto)]
    rw [fillArg_required hreq]
  · rw [if_neg hreq]
    unfold fillArg
    have hreq2 : a.required = false := by
      cases hr : a.required
      · rfl
      · exact absurd hr hreq
    by_cases hec : a.expectCount ≠ UNLIM
    · rw [if_pos hec, if_pos ⟨hreq2, hec⟩]
    · rw [if_neg hec, if_neg (by tauto)]

theorem checkFold_frozen : ∀ (L : List Nat) (p : ArgumentParser) (e : ArgErr),
    L.foldl checkIdx (p, some e) = (p, some e) := by
  intro L
  induction L with
  | nil => intro p e; rfl
  | cons i L ih =>
    intro p e
    rw [List.foldl_cons]
    exact ih p e

theorem checkFold_ok_iff : ∀ (L : List Nat) (p : ArgumentParser),
    (L.foldl checkIdx (p, none)).2 = none ↔ ∀ i ∈ L, ¬ argFails (getArg p i) := by
  intro L
  induction L with
  | nil => simp
  | cons i L ih =>
    intro p
    rw [List.foldl_cons]
    by_cases hf : argFails (getArg p i)
    · obtain ⟨e, he⟩ := checkArgument_of_fails hf
      have hstep : checkIdx (p, none) i = (p, some e) := by
        simp [checkIdx, he]
      rw [hstep, checkFold_frozen]
      constructor
      · intro h
        cases h
      · intro h
        exact absurd hf (h i (by simp))
    · have hstep : checkIdx (p, none) i = (setArg p i (fillArg (getArg p i)), none) := by
        simp [checkIdx, checkArgument_of_ok hf]
      rw [hstep, ih]
      constructor
      · intro h k hk
        rcases List.mem_cons.mp hk with rfl | hk2
        · exact hf
        · have := h k hk2
          rw [getArg_setArg] at this
          by_cases hki : k = i
          · subst hki
            rw [if_pos rfl, argFails_fillArg] at this
            exact this
          · rw [if_neg hki] at this
            exact this
      · intro h k hk
        rw [getArg_setArg]
        by_cases hki : k = i
        · subst hki
          rw [if_pos rfl, argFails_fillArg]
          exact hf
        · rw [if_neg hki]
          exact h k (by simp [hk])

theorem checkFold_err_prop : ∀ (L : List Nat) (p : ArgumentParser) (e : ArgErr),
    (L.foldl checkIdx (p, none)).2 = some e → ∃ k pr r, e = .property k pr r := by
  intro L
  induction L with
  | nil =>
    intro p e h
    cases h
  | cons i L ih =>
    intro p e h
    rw [List.foldl_cons] at h
    cases hc : checkArgument (getArg p i) with
    | error e0 =>
      have hstep : checkIdx (p, none) i = (p, some e0) := by
        simp [checkIdx, hc]
      rw [hstep, checkFold_frozen] at h
      injection h with he
      rw [← he]
      exact checkArgument_err_prop hc
    | ok a =>
      have hstep : checkIdx (p, none) i = (setArg p i a, none) := by
        simp [checkIdx, hc]
      rw [hstep] at h
      exact ih _ e h

theorem checkFold_args : ∀ (L : List Nat) (p : ArgumentParser),
    (∀ i ∈ L, ¬ argFails (getArg p i)) →
    ∀ j, getArg (L.foldl checkIdx (p, none)).1 j =
      if j ∈ L then fillArg (getArg p j) else getArg p j := by
  intro L
  induction L with
  | nil =>
    intro p _ j
    simp
  | cons i L ih =>
    intro p h j
    have hfi : ¬ argFails (getArg p i) := h i (by simp)
    rw [List.foldl_cons]
    have hstep : checkIdx (p, none) i = (setArg p i (fillArg (getArg p i)), none) := by
      simp [checkIdx, checkArgument_of_ok hfi]
    rw [hstep]
    have h2 : ∀ k ∈ L, ¬ argFails (getArg (setArg p i (fillArg (getArg p i))) k) := by
      intro k hk
      rw [getArg_setArg]
      by_cases hki : k = i
      · subst hki
        rw [if_pos rfl, argFails_fillArg]
        exact hfi
      · rw [if_neg hki]
        exact h k (by simp [hk])
    rw [ih _ h2 j, getArg_setArg]
    by_cases hjL : j ∈ L
    · rw [if_pos hjL]
      by_cases hji : j = i
      · subst hji
        rw [if_pos rfl, fillArg_fillArg, if_pos (by simp [hjL])]
      · rw [if_neg hji, if_pos (by simp [hjL])]
    · rw [if_neg hjL]
      by_cases hji : j = i
      · subst hji
        rw [if_pos rfl, if_pos (by simp)]
      · rw [if_neg hji, if_neg (by simp [hjL, hji])]

theorem not_argFails_iff (a : Argument) :
    ¬ argFails a ↔ (a.required = true →
      a.given = true ∧ (a.expectCount = UNLIM ∨ a.argValueList.length = a.expectCount)) := by
  unfold argFails
  constructor
  · intro h hreq
    push_neg at h
    have := h hreq
    constructor
    · cases hg : a.given
      · exact absurd hg this.1
      · rfl
    · rcases this with ⟨_, h2⟩
      by_cases hec : a.expectCount = UNLIM
      · exact Or.inl hec
      · right
        by_contra hc
        exact hc (h2 hec)
  · intro h hc
    obtain ⟨hreq, hor⟩ := hc
    obtain ⟨hg, hcnt⟩ := h hreq
    rcases hor with h1 | ⟨h2, h3⟩
    · rw [hg] at h1
      cases h1
    · rcases hcnt with h4 | h4
      · exact h2 h4
      · exact h3 h4

/-! ### C2: the required/arity post-scan check -/

/-- C2 (amended).  When the scan half of `cmdlineIs` consumes all tokens
without an exception, the check half raises an exception iff some argument
it visits — every positional, and every option reachable under a key not
recorded as an alias — is required and either not given, or of finite arity
with a value count different from `expectCount`; the exception raised is
always a property error, and a required unlimited-arity argument passes
whenever it is given, even with zero values.  (An option whose canonical
name is shadowed as an alias key is skipped by the check, so as stated over
all registries the claim fails — see the counterexample.) -/
theorem c2_required_check (p : ArgumentParser) (argv : List Str) (st : ArgumentParser)
    (hscan : scanPhase p argv = some (st, none)) :
    cmdlineIs p argv = some (checkPhase st)
    ∧ ((checkPhase st).2 = none ↔
        ∀ i ∈ checkedIdxs st, (getArg st i).required = true →
          (getArg st i).given = true
          ∧ ((getArg st i).expectCount = UNLIM
             ∨ (getArg st i).argValueList.length = (getArg st i).expectCount))
    ∧ (∀ e, (checkPhase st).2 = some e → ∃ k pr r, e = .property k pr r) := by
  refine ⟨?_, ?_, ?_⟩
  · unfold cmdlineIs
    rw [hscan]
  · unfold checkPhase
    rw [checkFold_ok_iff]
    constructor
    · intro h i hi
      exact (not_argFails_iff _).mp (h i hi)
    · intro h i hi
      exact (not_argFails_iff _).mpr (h i hi)
  · intro e he
    unfold checkPhase at he
    exact checkFold_err_prop _ _ _ he

/-! ### C1: default back-fill -/

/-- C1 (amended).  When `cmdlineIs` completes without an exception, every
argument visited by the post-scan check that is non-required with finite
arity (`expectCount` neither 0 nor the unlimited sentinel) ends the parse
with its scanned values followed by copies of the stringified default
filling the slots from the scanned count up to `expectCount` — hence with
exactly `expectCount` values whenever the scan collected at most
`expectCount` of them.  (If an option is matched several times the scan can
collect more than `expectCount` values, which are all kept, and an option
shadowed as an alias key is skipped — so "exactly `expectCount`" fails over
all registries, see the counterexample.) -/
theorem c1_backfill (p : ArgumentParser) (argv : List Str) (st : ArgumentParser)
    (hscan : scanPhase p argv = some (st, none))
    (hok : (checkPhase st).2 = none) :
    cmdlineIs p argv = some (checkPhase st)
    ∧ ∀ i ∈ checkedIdxs st, (getArg st i).required = false →
        (getArg st i).expectCount ≠ 0 → (getArg st i).expectCount ≠ UNLIM →
        ((getArg (checkPhase st).1 i).argValueList =
          (getArg st i).argValueList ++
            List.replicate ((getArg st i).expectCount - (getArg st i).argValueList.length)
              (getArg st i).defaultValue)
        ∧ ((getArg st i).argValueList.length ≤ (getArg st i).expectCount →
            (getArg (checkPhase st).1 i).argValueList.length = (getArg st i).expectCount) := by
  have hall : ∀ i ∈ checkedIdxs st, ¬ argFails (getArg st i) := by
    have := hok
    unfold checkPhase at this
    rw [checkFold_ok_iff] at this
    exact this
  refine ⟨?_, ?_⟩
  · unfold cmdlineIs
    rw [hscan]
  · intro i hi hreq hec0 hecU
    have hargs : getArg (checkPhase st).1 i = fillArg (getArg st i) := by
      unfold checkPhase
      rw [checkFold_args _ _ hall i, if_pos hi]
    rw [hargs]
    unfold fillArg
    rw [if_pos ⟨hreq, hecU⟩]
    refine ⟨rfl, ?_⟩
    intro hle
    simp only [List.length_append, List.length_replicate]
    omega

/-- C2 witness: on the registry with the required option `-b` satisfied by
`-b v`, the post-scan check passes, by the iff of the check theorem. -/
theorem c2_required_check_witness : (checkPhase exStB).2 = none :=
  ((c2_required_check exReqB exArgvB exStB rfl).2.1).mpr (by decide)

/-- C2 counterexample: after two successful declarations, the required
option declared under the name `--x` (previously recorded as an alias key)
is skipped by the post-scan check, so `cmdlineIs` on a command line not
giving it returns without any error although the argument is required and
not given — refuting the claim's "raises a property error iff" over all
registries. -/
theorem c2_skipped_required :
    clashD1.2 = none ∧ clashD2.2 = none
    ∧ lookupA clashP.optionMap (str "--x") = some 1
    ∧ (getArg clashP 1).required = true
    ∧ cmdlineIs clashP [str "prog"] = some (clashR3.1, none)
    ∧ (getArg clashR3.1 1).given = false :=
  ⟨by decide, by decide, by decide, by decide, rfl, by decide⟩

/-- C1 witness: the back-fill equation applied to the registry `exOptA`
after scanning `-a x` (one value scanned, arity 2). -/
theorem c1_backfill_witness :
    (getArg (checkPhase exStA).1 0).argValueList =
      (getArg exStA 0).argValueList ++
        List.replicate ((getArg exStA 0).expectCount - (getArg exStA 0).argValueList.length)
          (getArg exStA 0).defaultValue :=
  ((c1_backfill exOptA exArgvA exStA rfl (by decide)).2 0 (by decide) (by decide)
    (by decide) (by decide)).1

/-- C1 counterexample: the non-required option `-a` of arity 1 is matched
twice by `-a x -a y`; `cmdlineIs` completes without error and the argument
ends the parse with two stored values, not exactly `expectCount = 1`. -/
theorem c1_overshoot :
    cmdlineIs exC1p [str "prog", str "-a", str "x", str "-a", str "y"] = some (exC1r.1, none)
    ∧ lookupA exC1p.optionMap (str "-a") = some 0
    ∧ (getArg exC1r.1 0).required = false
    ∧ (getArg exC1r.1 0).expectCount = 1
    ∧ (getArg exC1r.1 0).argValueList.length = 2 :=
  ⟨rfl, by decide, by decide, by decide, by decide⟩

/-! ### C5: re-parsing fully resets parse state -/

theorem clearArg_clearArg (a : Argument) : clearArg (clearArg a) = clearArg a := rfl

theorem clearArg_fields (a : Argument) :
    (clearArg a).name = a.name ∧ (clearArg a).help = a.help
    ∧ (clearArg a).expectCount = a.expectCount ∧ (clearArg a).required = a.required
    ∧ (clearArg a).defaultValue = a.defaultValue ∧ (clearArg a).choices = a.choices :=
  ⟨rfl, rfl, rfl, rfl, rfl, rfl⟩

theorem foldClearPos_shape : ∀ (L : List Nat) (q : ArgumentParser),
    (L.foldl (fun q i => setArg q i (clearArg (getArg q i))) q).description = q.description
    ∧ (L.foldl (fun q i => setArg q i (clearArg (getArg q i))) q).argsLen = q.argsLen
    ∧ (L.foldl (fun q i => setArg q i (clearArg (getArg q i))) q).positionalArgList
        = q.positionalArgList
    ∧ (L.foldl (fun q i => setArg q i (clearArg (getArg q i))) q).optionMap = q.optionMap
    ∧ (L.foldl (fun q i => setArg q i (clearArg (getArg q i))) q).aliasMap = q.aliasMap := by
  intro L
  induction L with
  | nil => intro q; exact ⟨rfl, rfl, rfl, rfl, rfl⟩
  | cons i L ih =>
    intro q
    rw [List.foldl_cons]
    exact ih (setArg q i (clearArg (getArg q i)))

theorem foldClearPos_args : ∀ (L : List Nat) (q : ArgumentParser) (j : Nat),
    getArg (L.foldl (fun q i => setArg q i (clearArg (getArg q i))) q) j =
      if j ∈ L then clearArg (getArg q j) else getArg q j := by
  intro L
  induction L with
  | nil => intro q j; simp
  | cons i L ih =>
    intro q j
    rw [List.foldl_cons, ih]
    by_cases hji : j = i
    · subst hji
      by_cases hjL : j ∈ L <;> simp [hjL, getArg_setArg, clearArg_clearArg]
    · by_cases hjL : j ∈ L <;> simp [hjL, hji, getArg_setArg]

theorem foldClearOpt_shape (am : List (Str × Str)) :
    ∀ (L : List (Str × Nat)) (q : ArgumentParser),
    ((L.foldl (fun q kv => if lookupA am kv.1 = none then
        setArg q kv.2 (clearArg (getArg q kv.2)) else q) q).description = q.description)
    ∧ ((L.foldl (fun q kv => if lookupA am kv.1 = none then
        setArg q kv.2 (clearArg (getArg q kv.2)) else q) q).argsLen = q.argsLen)
    ∧ ((L.foldl (fun q kv => if lookupA am kv.1 = none then
        setArg q kv.2 (clearArg (getArg q kv.2)) else q) q).positionalArgList
          = q.positionalArgList)
    ∧ ((L.foldl (fun q kv => if lookupA am kv.1 = none then
        setArg q kv.2 (clearArg (getArg q kv.2)) else q) q).optionMap = q.optionMap)
    ∧ ((L.foldl (fun q kv => if lookupA am kv.1 = none then
        setArg q kv.2 (clearArg (getArg q kv.2)) else q) q).aliasMap = q.aliasMap) := by
  intro L
  induction L with
  | nil => intro q; exact ⟨rfl, rfl, rfl, rfl, rfl⟩
  | cons kv L ih =>
    intro q
    rw [List.foldl_cons]
    by_cases hc : lookupA am kv.1 = none
    · rw [if_pos hc]
      exact ih (setArg q kv.2 (clearArg (getArg q kv.2)))
    · rw [if_neg hc]
      exact ih q

theorem foldClearOpt_args (am : List (Str × Str)) :
    ∀ (L : List (Str × Nat)) (q : ArgumentParser) (j : Nat),
    getArg (L.foldl (fun q kv => if lookupA am kv.1 = none then
        setArg q kv.2 (clearArg (getArg q kv.2)) else q) q) j =
      if j ∈ (L.filter (fun kv => lookupA am kv.1 = none)).map (fun kv => kv.2) then
        clearArg (getArg q j)
      else getArg q j := by
  intro L
  induction L with
  | nil => intro q j; simp
  | cons kv L ih =>
    intro q j
    rw [List.foldl_cons]
    by_cases hal : lookupA am kv.1 = none
    · rw [if_pos hal, ih]
      have hmem : (((kv :: L).filter (fun kv => lookupA am kv.1 = none)).map
          (fun kv => kv.2)) = kv.2 :: ((L.filter (fun kv => lookupA am kv.1 = none)).map
          (fun kv => kv.2)) := by
        rw [List.filter_cons_of_pos (by simp [hal])]
        rfl
      rw [hmem]
      by_cases hjL : j ∈ (L.filter (fun kv => lookupA am kv.1 = none)).map (fun kv => kv.2)
      · by_cases hji : j = kv.2 <;> simp [hjL, hji, getArg_setArg, clearArg_clearArg]
      · by_cases hji : j = kv.2 <;> simp [hjL, hji, getArg_setArg, clearArg_clearArg]
    · rw [if_neg hal, ih]
      have hmem : (((kv :: L).filter (fun kv => lookupA am kv.1 = none)).map
          (fun kv => kv.2)) = ((L.filter (fun kv => lookupA am kv.1 = none)).map
          (fun kv => kv.2)) := by
        rw [List.filter_cons_of_neg (by simp [hal])]
      rw [hmem]

theorem reset_shape (p : ArgumentParser) :
    (reset p).description = p.description
    ∧ (reset p).argsLen = p.argsLen
    ∧ (reset p).positionalArgList = p.positionalArgList
    ∧ (reset p).optionMap = p.optionMap
    ∧ (reset p).aliasMap = p.aliasMap := by
  simp only [reset]
  refine ⟨?_, ?_, ?_, ?_, ?_⟩
  · rw [(foldClearOpt_shape p.aliasMap _ _).1, (foldClearPos_shape _ _).1]
  · rw [(foldClearOpt_shape p.aliasMap _ _).2.1, (foldClearPos_shape _ _).2.1]
  · rw [(foldClearOpt_shape p.aliasMap _ _).2.2.1, (foldClearPos_shape _ _).2.2.1]
  · rw [(foldClearOpt_shape p.aliasMap _ _).2.2.2.1, (foldClearPos_shape _ _).2.2.2.1]
  · rw [(foldClearOpt_shape p.aliasMap _ _).2.2.2.2, (foldClearPos_shape _ _).2.2.2.2]

theorem reset_args (p : ArgumentParser) (j : Nat) :
    getArg (reset p) j =
      if j ∈ checkedIdxs p then clearArg (getArg p j) else getArg p j := by
  simp only [reset]
  rw [foldClearOpt_args]
  rw [(foldClearPos_shape p.positionalArgList p).2.2.2.1]
  rw [foldClearPos_args]
  unfold checkedIdxs
  by_cases h1 : j ∈ p.positionalArgList
  · by_cases h2 : j ∈ (p.optionMap.filter (fun kv => lookupA p.aliasMap kv.1 = none)).map
        (fun kv => kv.2) <;>
      simp [h1, h2, clearArg_clearArg]
  · by_cases h2 : j ∈ (p.optionMap.filter (fun kv => lookupA p.aliasMap kv.1 = none)).map
        (fun kv => kv.2) <;>
      simp [h1, h2, clearArg_clearArg]

theorem parser_eq (p q : ArgumentParser)
    (h1 : p.description = q.description) (h2 : p.argsLen = q.argsLen)
    (h3 : p.args = q.args) (h4 : p.positionalArgList = q.positionalArgList)
    (h5 : p.optionMap = q.optionMap) (h6 : p.aliasMap = q.aliasMap) : p = q := by
  cases p
  cases q
  simp_all

theorem checkedIdxs_reset (p : ArgumentParser) : checkedIdxs (reset p) = checkedIdxs p := by
  unfold checkedIdxs
  rw [(reset_shape p).2.2.1, (reset_shape p).2.2.2.1, (reset_shape p).2.2.2.2]

theorem reset_reset (p : ArgumentParser) : reset (reset p) = reset p := by
  apply parser_eq
  · rw [(reset_shape (reset p)).1, (reset_shape p).1]
  · rw [(reset_shape (reset p)).2.1, (reset_shape p).2.1]
  · funext j
    have h1 : (reset (reset p)).args j = getArg (reset (reset p)) j := rfl
    have h2 : (reset p).args j = getArg (reset p) j := rfl
    rw [h1, h2, reset_args, checkedIdxs_reset, reset_args]
    by_cases h : j ∈ checkedIdxs p <;> simp [h, clearArg_clearArg]
  · rw [(reset_shape (reset p)).2.2.1, (reset_shape p).2.2.1]
  · rw [(reset_shape (reset p)).2.2.2.1, (reset_shape p).2.2.2.1]
  · rw [(reset_shape (reset p)).2.2.2.2, (reset_shape p).2.2.2.2]

theorem cmdlineIs_reset (p : ArgumentParser) (argv : List Str) :
    cmdlineIs (reset p) argv = cmdlineIs p argv := by
  unfold cmdlineIs scanPhase
  rw [reset_reset, (reset_shape p).2.2.1]

/-- C5 (amended).  Provided every option-map entry is reachable under at
least one non-alias key (`ResetCovers`, which holds whenever no canonical
option name was also recorded as an alias key), `cmdlineIs` begins by fully
resetting the parse state: every positional argument and every option-map
entry has its value list cleared and its given flag dropped, while the
description, the maps, the arena size and every record's declaration-time
fields (name, help, expectCount, required, defaultValue, choices) are left
unchanged; moreover a parse from a reset registry gives the same result as
from the original one, so a successful second parse depends only on the
declarations and the second token vector.  (Without `ResetCovers` an
option shadowed as an alias key is not cleared — see the counterexample.) -/
theorem c5_reset_semantics (p : ArgumentParser) (hcov : ResetCovers p) :
    (∀ i ∈ p.positionalArgList, getArg (reset p) i = clearArg (getArg p i))
    ∧ (∀ kv ∈ p.optionMap, getArg (reset p) kv.2 = clearArg (getArg p kv.2))
    ∧ (reset p).description = p.description
    ∧ (reset p).argsLen = p.argsLen
    ∧ (reset p).positionalArgList = p.positionalArgList
    ∧ (reset p).optionMap = p.optionMap
    ∧ (reset p).aliasMap = p.aliasMap
    ∧ (∀ j, (getArg (reset p) j).name = (getArg p j).name
        ∧ (getArg (reset p) j).help = (getArg p j).help
        ∧ (getArg (reset p) j).expectCount = (getArg p j).expectCount
        ∧ (getArg (reset p) j).required = (getArg p j).required
        ∧ (getArg (reset p) j).defaultValue = (getArg p j).defaultValue
        ∧ (getArg (reset p) j).choices = (getArg p j).choices)
    ∧ (∀ argv, cmdlineIs (reset p) argv = cmdlineIs p argv) := by
  have hsh := reset_shape p
  refine ⟨?_, ?_, hsh.1, hsh.2.1, hsh.2.2.1, hsh.2.2.2.1, hsh.2.2.2.2, ?_, ?_⟩
  · intro i hi
    rw [reset_args, if_pos (by unfold checkedIdxs; simp [hi])]
  · intro kv hkv
    obtain ⟨kv2, hkv2, hsame, halias⟩ := hcov kv hkv
    have hmem : kv.2 ∈ checkedIdxs p := by
      unfold checkedIdxs
      rw [← hsame]
      refine List.mem_append.mpr (Or.inr ?_)
      refine List.mem_map.mpr ⟨kv2, ?_, rfl⟩
      exact List.mem_filter.mpr ⟨hkv2, by simp [halias]⟩
    rw [reset_args, if_pos hmem]
  · intro j
    rw [reset_args]
    by_cases h : j ∈ checkedIdxs p
    · rw [if_pos h]
      exact clearArg_fields (getArg p j)
    · rw [if_neg h]
      exact ⟨rfl, rfl, rfl, rfl, rfl, rfl⟩
  · intro argv
    exact cmdlineIs_reset p argv

/-- C5 witness: the reset-clearing applied to the option entry of the
registry `exOptA`. -/
theorem c5_reset_semantics_witness :
    getArg (reset exOptA) 0 = clearArg (getArg exOptA 0) :=
  (c5_reset_semantics exOptA (by decide)).2.1 (str "-a", 0) (by decide)

/-- C5 counterexample: after two successful declarations in which the
option name `--x` shadows an alias key, a first parse stores the value `v`
for it and a second parse of the resulting registry does not clear it: the
second `cmdlineIs` succeeds while the stored value list of the registered
option `--x` still holds `v` and its given flag is still set — prior parse
state leaks into the result of the second parse. -/
theorem c5_stale_values :
    clashD1.2 = none ∧ clashD2.2 = none
    ∧ cmdlineIs clashP [str "prog", str "--x", str "v"] = some (clashR1.1, none)
    ∧ (getArg clashR1.1 1).argValueList = [str "v"]
    ∧ cmdlineIs clashR1.1 [str "prog"] = some (clashR2.1, none)
    ∧ (getArg clashR2.1 1).argValueList = [str "v"]
    ∧ (getArg clashR2.1 1).given = true
    ∧ lookupA clashR2.1.optionMap (str "--x") = some 1 :=
  ⟨by decide, by decide, rfl, by decide, rfl, by decide, by decide, by decide⟩

/-! ### C4: alias resolution invariant -/

theorem processAliases_aliasInv :
    ∀ (as : List Str) (q : ArgumentParser) (name : Str) (i : Nat)
      (q2 : ArgumentParser) (e : Option ArgErr),
    AliasInv q →
    lookupA q.optionMap name = some i →
    (∀ al ∈ as, lookupA q.optionMap al = none ∨ lookupA q.optionMap al = some i) →
    processAliases q name i as = (q2, e) →
    AliasInv q2 := by
  intro as
  induction as with
  | nil =>
    intro q name i q2 e hinv _ _ heq
    unfold processAliases at heq
    injection heq with h1 _
    subst h1
    exact hinv
  | cons al rest ih =>
    intro q name i q2 e hinv hname hfresh heq
    unfold processAliases at heq
    split_ifs at heq with hflag
    · injection heq with h1 _
      subst h1
      exact hinv
    · apply ih _ name i q2 e ?_ ?_ ?_ heq
      · intro a nn ha
        have ha2 : lookupA (updateA q.aliasMap al name) a = some nn := ha
        rw [lookupA_updateA] at ha2
        by_cases hal : a = al
        · rw [if_pos hal] at ha2
          injection ha2 with hnn
          subst hnn
          subst hal
          refine ⟨i, ?_, ?_⟩
          · show lookupA (updateA q.optionMap a i) a = some i
            rw [lookupA_updateA, if_pos rfl]
          · show lookupA (updateA q.optionMap a i) name = some i
            rw [lookupA_updateA]
            split_ifs with hn2
            · rfl
            · exact hname
        · rw [if_neg hal] at ha2
          obtain ⟨j, hja, hjn⟩ := hinv a nn ha2
          refine ⟨j, ?_, ?_⟩
          · show lookupA (updateA q.optionMap al i) a = some j
            rw [lookupA_updateA, if_neg hal]
            exact hja
          · show lookupA (updateA q.optionMap al i) nn = some j
            rw [lookupA_updateA]
            split_ifs with hnal
            · have hf := hfresh al (by simp)
              rw [← hnal] at hf
              rcases hf with hf | hf
              · rw [hjn] at hf
                cases hf
              · rw [hjn] at hf
                injection hf with hji
                rw [hji]
            · exact hjn
      · show lookupA (updateA q.optionMap al i) name = some i
        rw [lookupA_updateA]
        split_ifs with hn2
        · rfl
        · exact hname
      · intro al2 hal2
        show lookupA (updateA q.optionMap al i) al2 = none
          ∨ lookupA (updateA q.optionMap al i) al2 = some i
        rw [lookupA_updateA]
        split_ifs with h2
        · right
          rfl
        · exact hfresh al2 (by simp [hal2])

theorem argumentNew_pos_maps {p : ArgumentParser} {n h dv : Str} {ec : Nat} {r : Bool}
    {cs as : List Str} {q : ArgumentParser} {e : Option ArgErr}
    (hn : isFlag n = false)
    (heq : argumentNew p n h ec r dv cs as = (q, e)) :
    q.optionMap = p.optionMap ∧ q.aliasMap = p.aliasMap := by
  unfold argumentNew at heq
  by_cases hA : isFlag n = false ∧ (ec % 2 ^ 64 = 0 ∨ ec % 2 ^ 64 = UNLIM)
  · rw [if_pos hA] at heq
    injection heq with hq _
    subst hq
    exact ⟨rfl, rfl⟩
  · rw [if_neg hA] at heq
    by_cases hB : isFlag n = true ∧ r = true ∧ ec % 2 ^ 64 = 0
    · rw [if_pos hB] at heq
      injection heq with hq _
      subst hq
      exact ⟨rfl, rfl⟩
    · rw [if_neg hB] at heq
      by_cases hC : ¬ isChoiceL cs dv
      · rw [if_pos hC] at heq
        injection heq with hq _
        subst hq
        exact ⟨rfl, rfl⟩
      · rw [if_neg hC] at heq
        rw [if_neg (by simp [hn])] at heq
        by_cases hE : p.positionalArgList ≠ []
            ∧ p.positionalArgList.getLast?.map (fun j => (p.args j).required) = some false
            ∧ r = true
        · rw [if_pos hE] at heq
          injection heq with hq _
          subst hq
          exact ⟨rfl, rfl⟩
        · rw [if_neg hE] at heq
          injection heq with hq _
          subst hq
          exact ⟨rfl, rfl⟩

theorem argumentNew_opt_aliasInv {p : ArgumentParser} {n h dv : Str} {ec : Nat} {r : Bool}
    {cs as : List Str} {q : ArgumentParser} {e : Option ArgErr}
    (hfl : isFlag n = true)
    (hfree : lookupA p.optionMap n = none)
    (hfreeas : ∀ al ∈ as, lookupA p.optionMap al = none)
    (hinv : AliasInv p)
    (heq : argumentNew p n h ec r dv cs as = (q, e)) :
    AliasInv q := by
  unfold argumentNew at heq
  rw [if_neg (by simp [hfl])] at heq
  by_cases hB : isFlag n = true ∧ r = true ∧ ec % 2 ^ 64 = 0
  case pos =>
    rw [if_pos hB] at heq
    injection heq with hq _
    subst hq
    exact hinv
  case neg =>
  rw [if_neg hB] at heq
  by_cases hC : ¬ isChoiceL cs dv
  case pos =>
    rw [if_pos hC] at heq
    injection heq with hq _
    subst hq
    exact hinv
  case neg =>
  rw [if_neg hC, if_pos hfl] at heq
  apply processAliases_aliasInv as _ n p.argsLen q e ?_ ?_ ?_ heq
  · intro a nn ha
    have ha2 : lookupA p.aliasMap a = some nn := ha
    obtain ⟨j, hja, hjn⟩ := hinv a nn ha2
    have hne1 : a ≠ n := by
      intro hc
      rw [hc, hfree] at hja
      cases hja
    have hne2 : nn ≠ n := by
      intro hc
      rw [hc, hfree] at hjn
      cases hjn
    refine ⟨j, ?_, ?_⟩
    · show lookupA (updateA p.optionMap n p.argsLen) a = some j
      rw [lookupA_updateA, if_neg hne1]
      exact hja
    · show lookupA (updateA p.optionMap n p.argsLen) nn = some j
      rw [lookupA_updateA, if_neg hne2]
      exact hjn
  · show lookupA (updateA p.optionMap n p.argsLen) n = some p.argsLen
    rw [lookupA_updateA, if_pos rfl]
  · intro al hal
    show lookupA (updateA p.optionMap n p.argsLen) al = none
      ∨ lookupA (updateA p.optionMap n p.argsLen) al = some p.argsLen
    rw [lookupA_updateA]
    split_ifs with h2
    · right
      rfl
    · left
      exact hfreeas al hal

/-- C4 (amended).  After any sequence of successful declarations in which
each newly declared option name and alias is fresh (not already a key of
the option map), every recorded alias key resolves in the option map to
the same underlying Argument record (the same arena index) as the
canonical option name it was recorded for.  (If a later declaration reuses
an alias key as its option name the invariant breaks — see the
counterexample.) -/
theorem c4_alias_invariant (p : ArgumentParser) (hre : Reaches p) :
    ∀ a n, lookupA p.aliasMap a = some n →
      ∃ i, lookupA p.optionMap a = some i ∧ lookupA p.optionMap n = some i := by
  induction hre with
  | init d =>
    intro a n ha
    cases ha
  | stepOpt hre hfl hfree hfreeas heq ih =>
    exact argumentNew_opt_aliasInv hfl hfree hfreeas ih heq
  | stepPos hre hfl heq ih =>
    intro a n ha
    obtain ⟨hop, hal⟩ := argumentNew_pos_maps hfl heq
    rw [hal] at ha
    obtain ⟨j, hja, hjn⟩ := ih a n ha
    rw [hop]
    exact ⟨j, hja, hjn⟩

/-- C4 witness: the invariant applied to the registry declaring `-n` with
alias `--nn`. -/
theorem c4_alias_invariant_witness :
    ∃ i, lookupA exN.optionMap (str "--nn") = some i
      ∧ lookupA exN.optionMap (str "-n") = some i := by
  have heq : argumentNew (emptyParser []) (str "-n") [] 1 true [] [] [str "--nn"]
      = (exN, none) := rfl
  exact c4_alias_invariant exN
    (Reaches.stepOpt (Reaches.init []) (by decide) (by decide) (by decide) heq)
    (str "--nn") (str "-n") (by decide)

/-- C4 counterexample: two successful declarations after which the alias
key `--x` (recorded for option `-a`) resolves to a different Argument
record than the canonical name `-a` — the second declaration reused the
alias key as an option name and shadowed it in the option map while the
alias map still records it. -/
theorem c4_alias_shadowed :
    clashD1.2 = none ∧ clashD2.2 = none
    ∧ lookupA clashP.aliasMap (str "--x") = some (str "-a")
    ∧ lookupA clashP.optionMap (str "--x") = some 1
    ∧ lookupA clashP.optionMap (str "-a") = some 0 := by
  decide

/-! ### C3: atomicity of declaration -/

theorem processAliases_err :
    ∀ (as : List Str) (q0 : ArgumentParser) (name : Str) (i : Nat)
      (q2 : ArgumentParser) (e : ArgErr),
    processAliases q0 name i as = (q2, some e) →
    ∃ k rr, e = .property k (str "alias") rr := by
  intro as
  induction as with
  | nil =>
    intro q0 name i q2 e heq
    unfold processAliases at heq
    injection heq with _ h2
    cases h2
  | cons al rest ih =>
    intro q0 name i q2 e heq
    unfold processAliases at heq
    split_ifs at heq with hflag
    · injection heq with _ h2
      injection h2 with h3
      exact ⟨name, str "alias for flag must also be a flag", h3.symm⟩
    · exact ih _ name i q2 e heq

/-- C3 (amended).  Declaration is atomic for the arity, required-pure-flag,
default-not-in-choices and required-after-optional property errors: when
`argumentNew` raises any property error other than the `alias` one, the
registry is returned exactly as it was before the call.  (The non-flag
alias error is raised only after the canonical name and any earlier aliases
have been inserted, so declaration is not atomic for it — see the
counterexample.) -/
theorem c3_declaration_atomic (p : ArgumentParser) (n h dv : Str) (ec : Nat) (r : Bool)
    (cs as : List Str) (q : ArgumentParser) (e : ArgErr)
    (heq : argumentNew p n h ec r dv cs as = (q, some e))
    (hnotalias : ∀ k pr rr, e = .property k pr rr → pr ≠ str "alias") :
    q = p := by
  unfold argumentNew at heq
  by_cases hA : isFlag n = false ∧ (ec % 2 ^ 64 = 0 ∨ ec % 2 ^ 64 = UNLIM)
  · rw [if_pos hA] at heq
    injection heq with hq _
    exact hq.symm ▸ rfl
  · rw [if_neg hA] at heq
    by_cases hB : isFlag n = true ∧ r = true ∧ ec % 2 ^ 64 = 0
    · rw [if_pos hB] at heq
      injection heq with hq _
      exact hq.symm ▸ rfl
    · rw [if_neg hB] at heq
      by_cases hC : ¬ isChoiceL cs dv
      · rw [if_pos hC] at heq
        injection heq with hq _
        exact hq.symm ▸ rfl
      · rw [if_neg hC] at heq
        by_cases hD : isFlag n = true
        · rw [if_pos hD] at heq
          obtain ⟨k, rr, hkr⟩ := processAliases_err _ _ _ _ _ _ heq
          exact absurd rfl (hnotalias k (str "alias") rr hkr)
        · rw [if_neg hD] at heq
          by_cases hE : p.positionalArgList ≠ []
              ∧ p.positionalArgList.getLast?.map (fun j => (p.args j).required) = some false
              ∧ r = true
          · rw [if_pos hE] at heq
            injection heq with hq _
            exact hq.symm ▸ rfl
          · rw [if_neg hE] at heq
            injection heq with _ h2
            cases h2

/-- C3 witness: atomicity applied to the failing declaration of a
positional argument with arity 0 against the empty registry. -/
theorem c3_declaration_atomic_witness :
    (argumentNew (emptyParser []) (str "p") [] 0 true [] [] []).1 = emptyParser [] := by
  apply c3_declaration_atomic (emptyParser []) (str "p") [] [] 0 true [] []
      (argumentNew (emptyParser []) (str "p") [] 0 true [] [] []).1
      (.property (str "p") (str "expectCount")
        (str "positional argument should not be 0 or variable length"))
  · rfl
  · intro k pr rr he
    cases he
    decide

/-- C3 counterexample: declaring option `-a` with the non-flag alias `x`
raises the alias property error, but the returned registry already
contains the canonical name `-a` in its option map — the registry is not
exactly as it was before the call, refuting atomicity for the non-flag
alias check. -/
theorem c3_alias_not_atomic :
    exC3.2 = some (.property (str "-a") (str "alias")
        (str "alias for flag must also be a flag"))
    ∧ exC3.1.optionMap = [(str "-a", 0)]
    ∧ (emptyParser []).optionMap = [] := by
  decide

end Argparse
